import Mathlib

/-
Verification of the NBTEditor NBT codec (src/nbt.py) and tag editing
utilities (src/utils/tag_value_editor.py, src/utils/tag_action_controller.py).

Modelling conventions, chosen to mirror the Python source:
- Binary data is `List Nat`, each element a byte value (0..255 in real data).
- `struct.unpack_from` is modelled by `unpackBytes` and friends: it fails
  (returns `none`, i.e. raises `struct.error`) when fewer bytes than the
  format needs remain; a negative offset counts from the end of the buffer,
  as in CPython.
- Python slicing `data[a:b]` is modelled by `pySlice`, including the clamping
  and negative-index behaviour of Python slices (a slice never fails; it
  silently returns fewer bytes than requested).
- Python `str` values are modelled by their UTF-8 byte sequences
  (`List Nat`): `encode("utf-8")` is the identity, and `decode("utf-8")`
  is the identity on valid UTF-8 and raises `UnicodeDecodeError` (`none`)
  on invalid bytes (`utf8Decode`).
- Python's arbitrary-precision `int` is `Int`.  `struct.pack` range failures
  are modelled by `Option`.
- Float and Double tag payloads are modelled by their IEEE-754 bit patterns
  (`Nat`), the form in which the codec reads and writes them; numeric
  equality between tag payloads interprets those bit patterns exactly
  (see `decodeIEEE`).
-/

namespace NBTEditor

/-- Big-endian byte decomposition of `n`, `w` bytes wide (the byte layout
produced by `struct.pack` for unsigned big-endian formats). The most
significant byte comes first. -/
def natToBytesBE : Nat → Nat → List Nat
  | 0, _ => []
  | w + 1, n => natToBytesBE w (n / 256) ++ [n % 256]

/-- Big-endian byte recomposition, as `struct.unpack` performs it. -/
def bytesToNatBE (bs : List Nat) : Nat :=
  bs.foldl (fun a b => a * 256 + b) 0

/-- Reinterpret a `w`-byte unsigned value as twos-complement signed, the way
signed `struct` formats decode. -/
def toSigned (w : Nat) (n : Nat) : Int :=
  if 2 ^ (8 * w - 1) ≤ n then (n : Int) - 2 ^ (8 * w) else (n : Int)

/-- CPython `struct.unpack_from` offset resolution: a negative offset counts
from the end of the buffer. -/
def resolveOffset (len : Nat) (off : Int) : Int :=
  if off < 0 then (len : Int) + off else off

/-- Model of reading `w` raw bytes at `off` the way `struct.unpack_from`
does: fails (raises `struct.error`) unless the resolved offset is in range
and at least `w` bytes remain. -/
def unpackBytes (w : Nat) (data : List Nat) (off : Int) : Option (List Nat) :=
  let r := resolveOffset data.length off
  if 0 ≤ r ∧ r + (w : Int) ≤ (data.length : Int) then
    some ((data.drop r.toNat).take w)
  else none

/-- `struct.unpack_from` of a `w`-byte unsigned big-endian integer. -/
def readUIntBE (w : Nat) (data : List Nat) (off : Int) : Option Nat :=
  (unpackBytes w data off).map bytesToNatBE

/-- `struct.unpack_from` of a `w`-byte signed big-endian integer. -/
def readSIntBE (w : Nat) (data : List Nat) (off : Int) : Option Int :=
  (readUIntBE w data off).map (toSigned w)

/-- `struct.pack` of a `w`-byte unsigned big-endian integer; `none` models
the `struct.error` raised on an out-of-range argument. -/
def packUnsigned (w : Nat) (n : Nat) : Option (List Nat) :=
  if n < 2 ^ (8 * w) then some (natToBytesBE w n) else none

/-- `struct.pack` of a `w`-byte signed big-endian integer; `none` models the
`struct.error` raised on an out-of-range argument. -/
def packSigned (w : Nat) (v : Int) : Option (List Nat) :=
  if -(2 ^ (8 * w - 1) : Int) ≤ v ∧ v < 2 ^ (8 * w - 1) then
    some (natToBytesBE w (v.emod (2 ^ (8 * w))).toNat)
  else none

/-- Resolution of one Python slice endpoint against a list of length `len`:
negative indices count from the end, and both directions clamp to the
valid range. -/
def pySliceIdx (len : Nat) (i : Int) : Nat :=
  if i < 0 then (max 0 ((len : Int) + i)).toNat else min i.toNat len

/-- Python slice `data[a:b]`: never fails, silently yielding fewer elements
than requested when the range exceeds the data. -/
def pySlice (data : List Nat) (a b : Int) : List Nat :=
  let s := pySliceIdx data.length a
  let e := pySliceIdx data.length b
  (data.drop s).take (e - s)

/-- The in-memory tag model of `src/nbt.py`: one constructor per concrete
`Tag` subclass. `TagType.END` has no tag class (`TAG_CLASSES[END] is None`),
so there is no `End` constructor. A `ListTag` carries its `value` list and
its `list_tag_type` attribute (`Option Nat`, `none` for the Python `None`);
a `CompoundTag`'s `dict` is an insertion-ordered association list. -/
inductive NBTTag where
  | byteT (v : Int)
  | shortT (v : Int)
  | intT (v : Int)
  | longT (v : Int)
  | floatT (bits : Nat)
  | doubleT (bits : Nat)
  | byteArrayT (v : List Int)
  | stringT (s : List Nat)
  | listT (elems : List NBTTag) (listTagType : Option Nat)
  | compoundT (entries : List (List Nat × NBTTag))
  | intArrayT (v : List Int)
  | longArrayT (v : List Int)

/-- The `tag_type()` classmethod of each `Tag` subclass, as the raw
`TagType` id. -/
def tagTypeId : NBTTag → Nat
  | .byteT _ => 1
  | .shortT _ => 2
  | .intT _ => 3
  | .longT _ => 4
  | .floatT _ => 5
  | .doubleT _ => 6
  | .byteArrayT _ => 7
  | .stringT _ => 8
  | .listT _ _ => 9
  | .compoundT _ => 10
  | .intArrayT _ => 11
  | .longArrayT _ => 12

/-- `StringTag.serialize`: `pack(">H", len(encoded)) + encoded`; fails when
the UTF-8 byte length exceeds the unsigned 16-bit range. -/
def stringTagSerialize (s : List Nat) : Option (List Nat) :=
  (packUnsigned 2 s.length).map (fun lb => lb ++ s)

/-- A UTF-8 continuation byte, `0x80..0xBF`. -/
def isUtf8Cont (b : Nat) : Bool :=
  decide (0x80 ≤ b) && decide (b ≤ 0xBF)

/-- Python's strict UTF-8 acceptance (RFC 3629, as the `utf-8` codec
enforces it): ASCII; `C2..DF` plus one continuation; `E0`/`ED` with their
narrowed second bytes (rejecting overlongs and surrogates) and `E1..EF`
otherwise, plus two continuations; `F0`/`F4` with their narrowed second
bytes (rejecting overlongs and code points above U+10FFFF) and `F1..F3`
otherwise, plus three continuations. `C0`, `C1` and `F5..FF` never start a
sequence. -/
def utf8Valid : List Nat → Bool
  | [] => true
  | b :: rest =>
    if b ≤ 0x7F then utf8Valid rest
    else if 0xC2 ≤ b ∧ b ≤ 0xDF then
      match rest with
      | c1 :: rest2 => isUtf8Cont c1 && utf8Valid rest2
      | [] => false
    else if 0xE0 ≤ b ∧ b ≤ 0xEF then
      match rest with
      | c1 :: c2 :: rest2 =>
          (if b = 0xE0 then decide (0xA0 ≤ c1) && decide (c1 ≤ 0xBF)
           else if b = 0xED then decide (0x80 ≤ c1) && decide (c1 ≤ 0x9F)
           else isUtf8Cont c1) && isUtf8Cont c2 && utf8Valid rest2
      | _ => false
    else if 0xF0 ≤ b ∧ b ≤ 0xF4 then
      match rest with
      | c1 :: c2 :: c3 :: rest2 =>
          (if b = 0xF0 then decide (0x90 ≤ c1) && decide (c1 ≤ 0xBF)
           else if b = 0xF4 then decide (0x80 ≤ c1) && decide (c1 ≤ 0x8F)
           else isUtf8Cont c1) && isUtf8Cont c2 && isUtf8Cont c3 &&
            utf8Valid rest2
      | _ => false
    else false

/-- `bytes.decode("utf-8")` in the bytes model: a Python `str` is
represented by its UTF-8 encoding, so decoding returns the bytes
themselves when they are valid UTF-8 and raises `UnicodeDecodeError`
(`none`) otherwise. -/
def utf8Decode (bs : List Nat) : Option (List Nat) :=
  if utf8Valid bs then some bs else none

/-- `StringTag.deserialize`: reads the 16-bit length at `off` (this read is
the only bounds-checked step), then takes the Python slice
`data[off+2 : off+2+length]` — which silently truncates when fewer bytes
remain — and UTF-8-decodes it, which raises (`none`) when the sliced bytes
are not valid UTF-8; on success it returns offset `off + 2 + length` even
when that lies past the end of the buffer. -/
def stringTagDeserialize (data : List Nat) (off : Int) :
    Option (List Nat × Int) :=
  (readUIntBE 2 data off).bind
    (fun (len : Nat) =>
      (utf8Decode (pySlice data (off + 2) (off + 2 + (len : Int)))).map
        (fun s => (s, off + 2 + (len : Int))))

/-- `ByteArrayTag.serialize`: `pack(">i", len)` then `bytes(self.value)`;
`bytes()` raises (`none`) if any element is outside 0..255. -/
def byteArrayTagSerialize (l : List Int) : Option (List Nat) :=
  (packSigned 4 (l.length : Int)).bind (fun lb =>
    if l.all (fun x => decide (0 ≤ x) && decide (x < 256)) then
      some (lb ++ l.map Int.toNat)
    else none)

/-- `ByteArrayTag.deserialize`: reads the signed 32-bit length, then takes
the Python slice `data[off+4 : off+4+length]` with no sign or bounds check
and returns offset `off + 4 + length` — so a negative length yields a short
(typically empty) value and an offset that moved backwards. -/
def byteArrayTagDeserialize (data : List Nat) (off : Int) :
    Option (List Int × Int) :=
  (readSIntBE 4 data off).map
    (fun len => ((pySlice data (off + 4) (off + 4 + len)).map
                   (fun (b : Nat) => (b : Int)),
                 off + 4 + len))

/-- Decode `k` consecutive `w`-byte signed big-endian integers from a chunk,
as `struct.unpack_from` does for a repeated signed format. -/
def readSGroup (w : Nat) : Nat → List Nat → List Int
  | 0, _ => []
  | k + 1, chunk => toSigned w (bytesToNatBE (chunk.take w)) ::
      readSGroup w k (chunk.drop w)

/-- `struct.pack` of consecutive `w`-byte signed big-endian integers. -/
def packSignedGroup (w : Nat) : List Int → Option (List Nat)
  | [] => some []
  | v :: rest => (packSigned w v).bind (fun b =>
      (packSignedGroup w rest).map (fun bs => b ++ bs))

/-- `IntArrayTag.serialize`: length prefix then `pack(f">LENi", *values)`. -/
def intArrayTagSerialize (l : List Int) : Option (List Nat) :=
  (packSigned 4 (l.length : Int)).bind (fun lb =>
    (packSignedGroup 4 l).map (fun body => lb ++ body))

/-- `IntArrayTag.deserialize`: reads the signed 32-bit length, then
`unpack_from(f">LENi")`. A negative length makes the format string invalid
(`struct.error`, modelled as `none`); a length whose `4·len` bytes exceed
the remaining buffer also raises `struct.error`. -/
def intArrayTagDeserialize (data : List Nat) (off : Int) :
    Option (List Int × Int) :=
  (readSIntBE 4 data off).bind (fun len =>
    if len < 0 then none
    else (unpackBytes (4 * len.toNat) data (off + 4)).map
      (fun chunk => (readSGroup 4 len.toNat chunk, off + 4 + len * 4)))

/-- `LongArrayTag.serialize`: length prefix then `pack(f">LENq", *values)`. -/
def longArrayTagSerialize (l : List Int) : Option (List Nat) :=
  (packSigned 4 (l.length : Int)).bind (fun lb =>
    (packSignedGroup 8 l).map (fun body => lb ++ body))

/-- `LongArrayTag.deserialize`: like `IntArrayTag.deserialize` with 8-byte
elements. -/
def longArrayTagDeserialize (data : List Nat) (off : Int) :
    Option (List Int × Int) :=
  (readSIntBE 4 data off).bind (fun len =>
    if len < 0 then none
    else (unpackBytes (8 * len.toNat) data (off + 4)).map
      (fun chunk => (readSGroup 8 len.toNat chunk, off + 4 + len * 8)))

/-- Python 3.7+ `dict` item assignment `self.value[key] = value`
(`CompoundTag.__setitem__`): an existing key keeps its position in insertion
order and only its value is replaced; a new key is appended at the end. -/
def dictSet (d : List (List Nat × NBTTag)) (k : List Nat) (v : NBTTag) :
    List (List Nat × NBTTag) :=
  if d.any (fun e => decide (e.1 = k)) then
    d.map (fun e => if e.1 = k then (k, v) else e)
  else d ++ [(k, v)]

/-- Python `dict` lookup on the insertion-ordered association list. -/
def dictLookup (d : List (List Nat × NBTTag)) (k : List Nat) :
    Option NBTTag :=
  (d.find? (fun e => decide (e.1 = k))).map Prod.snd

mutual

/-- The `serialize` method, dispatched over tag variants exactly as each
`Tag` subclass implements it. `none` models a raised `struct.error` or
`ValueError`. A nonempty list writes `self.value[0].tag_type()` as the
element id; an empty list writes the `End` id and a zero count; a compound
writes its entries in insertion order followed by a single `End` byte. -/
def serializeTag : NBTTag → Option (List Nat)
  | .byteT v => packSigned 1 v
  | .shortT v => packSigned 2 v
  | .intT v => packSigned 4 v
  | .longT v => packSigned 8 v
  | .floatT bits => some (natToBytesBE 4 bits)
  | .doubleT bits => some (natToBytesBE 8 bits)
  | .byteArrayT l => byteArrayTagSerialize l
  | .stringT s => stringTagSerialize s
  | .listT [] _ => some ([0] ++ natToBytesBE 4 0)
  | .listT (e :: rest) _ =>
      (packSigned 4 ((e :: rest).length : Int)).bind (fun cb =>
        (serializeListElems (e :: rest)).map (fun body =>
          [tagTypeId e] ++ cb ++ body))
  | .compoundT es => (serializeCompoundEntries es).map (fun body => body ++ [0])
  | .intArrayT l => intArrayTagSerialize l
  | .longArrayT l => longArrayTagSerialize l

/-- Concatenated serializations of a list's elements, in order
(`ListTag.serialize`'s loop). -/
def serializeListElems : List NBTTag → Option (List Nat)
  | [] => some []
  | e :: rest => (serializeTag e).bind (fun b =>
      (serializeListElems rest).map (fun bs => b ++ bs))

/-- `CompoundTag.serialize`'s loop body: for each entry in insertion order,
the value's variant id, the 16-bit length-prefixed UTF-8 key, then the
value's serialization. -/
def serializeCompoundEntries : List (List Nat × NBTTag) → Option (List Nat)
  | [] => some []
  | (k, t) :: rest =>
      (packUnsigned 2 k.length).bind (fun klen =>
        (serializeTag t).bind (fun tb =>
          (serializeCompoundEntries rest).map (fun restb =>
            [tagTypeId t] ++ klen ++ k ++ tb ++ restb)))

end

/-- `ListTag.deserialize`'s element loop: decode `cnt` elements at
successive offsets, each with the decoder `deser` for the declared element
class (`tag_class.deserialize`). -/
def deserializeListElemsF (deser : List Nat → Int → Option (NBTTag × Int)) :
    Nat → List Nat → Int → Option (List NBTTag × Int)
  | 0, _, off => some ([], off)
  | c + 1, data, off =>
    match deser data off with
    | none => none
    | some (t, off2) =>
      match deserializeListElemsF deser c data off2 with
      | none => none
      | some (ts, off3) => some (t :: ts, off3)

/-- `CompoundTag.deserialize`'s loop: read a variant-id byte; `End` stops
and returns the accumulated mapping; otherwise read the length-prefixed
name, decode the value with `deser` (the dispatch through `TAG_CLASSES`),
store it with `dict` assignment semantics, and continue. `loopFuel` bounds
the number of iterations so the Python `while True` is total here; theorems
supply sufficient fuel explicitly. -/
def deserializeCompoundLoopF
    (deser : Nat → List Nat → Int → Option (NBTTag × Int)) :
    Nat → List (List Nat × NBTTag) → List Nat → Int →
    Option (List (List Nat × NBTTag) × Int)
  | 0, _, _, _ => none
  | loopFuel + 1, acc, data, off =>
    match readUIntBE 1 data off with
    | none => none
    | some id =>
      if id = 0 then some (acc, off + 1)
      else
        match readUIntBE 2 data (off + 1) with
        | none => none
        | some nameLen =>
          let name := pySlice data (off + 3) (off + 3 + (nameLen : Int))
          match deser id data (off + 3 + (nameLen : Int)) with
          | none => none
          | some (t, off2) =>
            deserializeCompoundLoopF deser loopFuel (dictSet acc name t)
              data off2

/-- Deserialization dispatched on a `TagType` id, as `TAG_CLASSES[id]`
followed by the class's `deserialize`. `none` models every raised
exception: `struct.error` on a truncated read, `KeyError` for an id with no
tag class (id > 12), and `AttributeError` for `TAG_CLASSES[0] is None`.
`fuel` bounds the nesting depth so the Python recursion is total here;
every theorem supplies sufficient fuel explicitly.

The `List` branch mirrors `ListTag.deserialize`: element id byte, signed
32-bit count; an `End` id or a zero count yields `ListTag([], TagType.END)`;
a negative count iterates `range(count)` zero times, yielding an empty list
with the declared element type; otherwise exactly `count` elements are
decoded in order. The `Compound` branch mirrors `CompoundTag.deserialize`'s
accumulating loop. -/
def deserializeById : Nat → Nat → List Nat → Int → Option (NBTTag × Int)
  | 0, _, _, _ => none
  | fuel + 1, id, data, off =>
    if id = 1 then (readSIntBE 1 data off).map (fun v => (.byteT v, off + 1))
    else if id = 2 then
      (readSIntBE 2 data off).map (fun v => (.shortT v, off + 2))
    else if id = 3 then
      (readSIntBE 4 data off).map (fun v => (.intT v, off + 4))
    else if id = 4 then
      (readSIntBE 8 data off).map (fun v => (.longT v, off + 8))
    else if id = 5 then
      (readUIntBE 4 data off).map (fun b => (.floatT b, off + 4))
    else if id = 6 then
      (readUIntBE 8 data off).map (fun b => (.doubleT b, off + 8))
    else if id = 7 then
      (byteArrayTagDeserialize data off).map (fun p => (.byteArrayT p.1, p.2))
    else if id = 8 then
      (stringTagDeserialize data off).map (fun p => (.stringT p.1, p.2))
    else if id = 9 then
      match readUIntBE 1 data off with
      | none => none
      | some eid =>
        match readSIntBE 4 data (off + 1) with
        | none => none
        | some cnt =>
          if eid = 0 ∨ cnt = 0 then some (.listT [] (some 0), off + 5)
          else if 12 < eid then none
          else if cnt < 0 then some (.listT [] (some eid), off + 5)
          else
            match deserializeListElemsF (fun d o => deserializeById fuel eid d o)
                cnt.toNat data (off + 5) with
            | none => none
            | some (ts, o) => some (.listT ts (some eid), o)
    else if id = 10 then
      match deserializeCompoundLoopF (fun i d o => deserializeById fuel i d o)
          fuel [] data off with
      | none => none
      | some (es, o) => some (.compoundT es, o)
    else if id = 11 then
      (intArrayTagDeserialize data off).map (fun p => (.intArrayT p.1, p.2))
    else if id = 12 then
      (longArrayTagDeserialize data off).map (fun p => (.longArrayT p.1, p.2))
    else none

/-- `CompoundTag.deserialize`: run the compound loop on an empty
accumulator. -/
def compoundTagDeserialize (fuel : Nat) (data : List Nat) (off : Int) :
    Option (List (List Nat × NBTTag) × Int) :=
  deserializeCompoundLoopF (fun i d o => deserializeById fuel i d o)
    fuel [] data off

/-- The byte-level part of `NBTFile.load`, after the file contents have been
read (and, when requested, gunzipped): reject an empty buffer, require the
root id byte to be `Compound`, read the length-prefixed root name, then
decode the root compound body, discarding the final offset. -/
def nbtLoadBytes (fuel : Nat) (data : List Nat) :
    Option (List Nat × List (List Nat × NBTTag)) :=
  if data.length = 0 then none
  else
    match readUIntBE 1 data 0 with
    | none => none
    | some id =>
      if id = 10 then
        match readUIntBE 2 data 1 with
        | none => none
        | some nameLen =>
          let name := pySlice data 3 (3 + (nameLen : Int))
          match compoundTagDeserialize fuel data (3 + (nameLen : Int)) with
          | none => none
          | some (es, _) => some (name, es)
      else none

/-- The mutable state of a `ListTag`: its `value` list and its
`list_tag_type` attribute. -/
structure PyListTag where
  elems : List NBTTag
  listTagType : Option Nat

/-- `ListTag.append`: a fresh list (`list_tag_type is None`) adopts the
appended tag's variant; otherwise a variant mismatch raises `TypeError`
(modelled by `Except.error`) before the list is touched, so on error the
list state is unchanged. -/
def listTagAppend (l : PyListTag) (item : NBTTag) : Except String PyListTag :=
  match l.listTagType with
  | none => .ok ⟨l.elems ++ [item], some (tagTypeId item)⟩
  | some t =>
    if tagTypeId item = t then .ok ⟨l.elems ++ [item], some t⟩
    else .error "List expects established element type, got a different one"

/-- The `Tag.__init__` path used by `ByteTag(value)`: the constructor stores
the given value unchanged, with no masking or range check. -/
def byteTagInit (n : Int) : NBTTag := .byteT n

/-- The integer branches of `update_tag_value`
(src/utils/tag_value_editor.py), with the already-parsed `int(value_string)`
as input: `ByteTag` stores `n & 0xFF` (equal to the nonnegative residue
`n.emod 256`), `ShortTag` stores `n & 0xFFFF`, `IntTag` and `LongTag` store
`n` unchanged. Non-integer variants are not touched by this input form. -/
def updateTagValueInt (tag : NBTTag) (n : Int) : NBTTag :=
  match tag with
  | .intT _ => .intT n
  | .byteT _ => .byteT (n.emod 256)
  | .shortT _ => .shortT (n.emod 65536)
  | .longT _ => .longT n
  | t => t

mutual

/-- A tag tree the codec can faithfully persist: every scalar within its
variant's `struct` range, float bit patterns within their width, byte-array
elements acceptable to Python `bytes()` (0..255), string and key byte
lengths within the unsigned 16-bit length prefix, array and list lengths
within the signed 32-bit count prefix, lists homogeneous, and compound keys
unique. Byte values of modelled strings are genuine bytes (< 256). -/
def validTag : NBTTag → Bool
  | .byteT v => decide (-128 ≤ v ∧ v < 128)
  | .shortT v => decide (-32768 ≤ v ∧ v < 32768)
  | .intT v => decide (-(2 ^ 31 : Int) ≤ v ∧ v < 2 ^ 31)
  | .longT v => decide (-(2 ^ 63 : Int) ≤ v ∧ v < 2 ^ 63)
  | .floatT bits => decide (bits < 2 ^ 32)
  | .doubleT bits => decide (bits < 2 ^ 64)
  | .byteArrayT l =>
      decide ((l.length : Int) < 2 ^ 31) &&
      l.all (fun x => decide (0 ≤ x ∧ x < 256))
  | .stringT s =>
      decide (s.length < 65536) && s.all (fun b => decide (b < 256)) &&
      utf8Valid s
  | .listT [] _ => true
  | .listT (e :: rest) _ =>
      decide (((e :: rest).length : Int) < 2 ^ 31) &&
      rest.all (fun x => decide (tagTypeId x = tagTypeId e)) &&
      validTag e && validList rest
  | .compoundT es => decide ((es.map Prod.fst).Nodup) && validEnts es
  | .intArrayT l =>
      decide ((l.length : Int) < 2 ^ 31) &&
      l.all (fun x => decide (-(2 ^ 31 : Int) ≤ x ∧ x < 2 ^ 31))
  | .longArrayT l =>
      decide ((l.length : Int) < 2 ^ 31) &&
      l.all (fun x => decide (-(2 ^ 63 : Int) ≤ x ∧ x < 2 ^ 63))

/-- Validity of every element of a list payload. -/
def validList : List NBTTag → Bool
  | [] => true
  | e :: r => validTag e && validList r

/-- Validity of compound entries: each key a genuine byte string short
enough for its 16-bit length prefix, each value valid. -/
def validEnts : List (List Nat × NBTTag) → Bool
  | [] => true
  | (k, t) :: r =>
      decide (k.length < 65536) && k.all (fun b => decide (b < 256)) &&
      validTag t && validEnts r

end

mutual

/-- Node count of a tag tree, the measure for structural inductions. -/
def tagSizeN : NBTTag → Nat
  | .listT es _ => listSizeN es + 1
  | .compoundT es => entsSizeN es + 1
  | _ => 1

/-- Total node count of list elements. -/
def listSizeN : List NBTTag → Nat
  | [] => 0
  | e :: r => tagSizeN e + listSizeN r

/-- Total node count of compound entry values. -/
def entsSizeN : List (List Nat × NBTTag) → Nat
  | [] => 0
  | e :: r => tagSizeN e.2 + entsSizeN r

end

mutual

/-- Recursion depth budget sufficient for `deserializeById` to decode this
tag's serialization. -/
def tagCost : NBTTag → Nat
  | .listT es _ => listCost es + 1
  | .compoundT es => entsCost es + 1
  | _ => 1

/-- Fuel needed by the element loop: each element is decoded with the same
fuel, so the maximum suffices. -/
def listCost : List NBTTag → Nat
  | [] => 0
  | e :: r => max (tagCost e) (listCost r)

/-- Fuel needed by the compound loop: one step per entry plus the decoding
cost of its value, and one final step to read the terminator. -/
def entsCost : List (List Nat × NBTTag) → Nat
  | [] => 1
  | (_, t) :: r => max (tagCost t) (entsCost r) + 1

end

mutual

/-- The exact tag tree `deserializeById` rebuilds from this tag's
serialization: identical throughout, except that every list's
`list_tag_type` is replaced by what the wire records — the `End` id (0) for
an empty list, the (shared) element variant id for a nonempty one. -/
def canonLtt : NBTTag → NBTTag
  | .listT [] _ => .listT [] (some 0)
  | .listT (e :: rest) _ =>
      .listT (canonLtt e :: canonList rest) (some (tagTypeId e))
  | .compoundT es => .compoundT (canonEnts es)
  | t => t

/-- `canonLtt` mapped over list elements. -/
def canonList : List NBTTag → List NBTTag
  | [] => []
  | e :: r => canonLtt e :: canonList r

/-- `canonLtt` mapped over compound entry values. -/
def canonEnts : List (List Nat × NBTTag) → List (List Nat × NBTTag)
  | [] => []
  | (k, t) :: r => (k, canonLtt t) :: canonEnts r

end

mutual

/-- Structural equality of tag trees by payload: same variant and equal
payloads recursively, comparing compound entries in insertion order and
list/array elements in order, and ignoring only the `list_tag_type`
annotation (which `Tag.__eq__` also ignores, comparing `value` fields
only). -/
def tagPayloadEq : NBTTag → NBTTag → Bool
  | .byteT a, .byteT b => a == b
  | .shortT a, .shortT b => a == b
  | .intT a, .intT b => a == b
  | .longT a, .longT b => a == b
  | .floatT a, .floatT b => a == b
  | .doubleT a, .doubleT b => a == b
  | .byteArrayT a, .byteArrayT b => a == b
  | .stringT a, .stringT b => a == b
  | .listT a _, .listT b _ => listPayloadEq a b
  | .compoundT a, .compoundT b => entsPayloadEq a b
  | .intArrayT a, .intArrayT b => a == b
  | .longArrayT a, .longArrayT b => a == b
  | _, _ => false

/-- Ordered elementwise payload equality of list elements. -/
def listPayloadEq : List NBTTag → List NBTTag → Bool
  | [], [] => true
  | a :: r1, b :: r2 => tagPayloadEq a b && listPayloadEq r1 r2
  | _, _ => false

/-- Ordered entrywise payload equality of compound entries. -/
def entsPayloadEq :
    List (List Nat × NBTTag) → List (List Nat × NBTTag) → Bool
  | [], [] => true
  | (k1, t1) :: r1, (k2, t2) :: r2 =>
      k1 == k2 && tagPayloadEq t1 t2 && entsPayloadEq r1 r2
  | _, _ => false

end

/-! Byte-level primitive lemmas. -/

@[simp] theorem length_natToBytesBE (w n : Nat) :
    (natToBytesBE w n).length = w := by
  induction w generalizing n with
  | zero => rfl
  | succ w ih => simp [natToBytesBE, ih]

theorem bytesToNatBE_append_single (bs : List Nat) (b : Nat) :
    bytesToNatBE (bs ++ [b]) = bytesToNatBE bs * 256 + b := by
  simp [bytesToNatBE, List.foldl_append]

theorem bytesToNatBE_natToBytesBE (w n : Nat) :
    bytesToNatBE (natToBytesBE w n) = n % 256 ^ w := by
  induction w generalizing n with
  | zero => simp [natToBytesBE, bytesToNatBE, Nat.mod_one]
  | succ w ih =>
    have key : n % 256 ^ (w + 1) = n / 256 % 256 ^ w * 256 + n % 256 := by
      have h1 : n % (256 * 256 ^ w) % 256 = n % 256 :=
        Nat.mod_mod_of_dvd n ⟨256 ^ w, rfl⟩
      have h2 : n % (256 * 256 ^ w) / 256 = n / 256 % 256 ^ w :=
        Nat.mod_mul_right_div_self n 256 (256 ^ w)
      have h3 : 256 ^ (w + 1) = 256 * 256 ^ w := by ring
      have h4 := Nat.div_add_mod (n % (256 * 256 ^ w)) 256
      rw [h3]
      omega
    simp [natToBytesBE, bytesToNatBE_append_single, ih, key]

theorem pow256_eq (w : Nat) : 256 ^ w = 2 ^ (8 * w) := by
  have : (256 : Nat) = 2 ^ 8 := by norm_num
  rw [this, ← pow_mul]

theorem unpackBytes_append (w : Nat) (pre bs post : List Nat)
    (h : w ≤ bs.length) :
    unpackBytes w (pre ++ (bs ++ post)) (pre.length : Int) =
      some (bs.take w) := by
  have hres : resolveOffset (pre ++ (bs ++ post)).length (pre.length : Int) =
      (pre.length : Int) := by
    simp [resolveOffset]
  have hcond : 0 ≤ (pre.length : Int) ∧
      (pre.length : Int) + (w : Int) ≤ ((pre ++ (bs ++ post)).length : Int) := by
    constructor
    · positivity
    · simp only [List.length_append]
      push_cast
      omega
  rw [unpackBytes]
  simp only [hres, if_pos hcond]
  have htn : ((pre.length : Int)).toNat = pre.length := Int.toNat_natCast _
  rw [htn, List.drop_left, List.take_append_of_le_length h]

theorem readUIntBE_append (w : Nat) (pre bs post : List Nat)
    (h : bs.length = w) :
    readUIntBE w (pre ++ (bs ++ post)) (pre.length : Int) =
      some (bytesToNatBE bs) := by
  rw [readUIntBE, unpackBytes_append w pre bs post (le_of_eq h.symm)]
  simp [← h]

theorem readUIntBE_pack (w n : Nat) (pre post : List Nat)
    (h : n < 2 ^ (8 * w)) :
    readUIntBE w (pre ++ (natToBytesBE w n ++ post)) (pre.length : Int) =
      some n := by
  rw [readUIntBE_append w pre _ post (length_natToBytesBE w n),
    bytesToNatBE_natToBytesBE]
  rw [pow256_eq] at *
  simp [Nat.mod_eq_of_lt h]

theorem readUIntBE_single (pre post : List Nat) (b : Nat) :
    readUIntBE 1 (pre ++ (b :: post)) (pre.length : Int) = some b := by
  have : b :: post = [b] ++ post := rfl
  rw [this, readUIntBE_append 1 pre [b] post rfl]
  simp [bytesToNatBE]

theorem packSigned_elim (w : Nat) (v : Int) (bs : List Nat)
    (h : packSigned w v = some bs) :
    -(2 ^ (8 * w - 1) : Int) ≤ v ∧ v < 2 ^ (8 * w - 1) ∧
      bs = natToBytesBE w (v.emod (2 ^ (8 * w))).toNat := by
  rw [packSigned] at h
  split at h
  · rename_i hr
    exact ⟨hr.1, hr.2, (Option.some_inj.mp h).symm⟩
  · exact absurd h (by simp)

theorem emod_toNat_lt (w : Nat) (v : Int) :
    (v.emod (2 ^ (8 * w))).toNat < 2 ^ (8 * w) := by
  have hpos : (0 : Int) < 2 ^ (8 * w) := by positivity
  have h1 : 0 ≤ v.emod (2 ^ (8 * w)) := Int.emod_nonneg v (ne_of_gt hpos)
  have h2 : v.emod (2 ^ (8 * w)) < 2 ^ (8 * w) := Int.emod_lt_of_pos v hpos
  have hc : (((2 : Nat) ^ (8 * w) : Nat) : Int) = (2 : Int) ^ (8 * w) := by
    push_cast
    ring
  omega

theorem toSigned_emod (w : Nat) (hw : 0 < w) (v : Int)
    (h1 : -(2 ^ (8 * w - 1) : Int) ≤ v) (h2 : v < 2 ^ (8 * w - 1)) :
    toSigned w (v.emod (2 ^ (8 * w))).toNat = v := by
  have hsplit : 8 * w = (8 * w - 1) + 1 := by omega
  have hM : (2 : Int) ^ (8 * w) = 2 ^ (8 * w - 1) * 2 := by
    conv_lhs => rw [hsplit]
    rw [pow_succ]
  have hMn : (2 : Nat) ^ (8 * w) = 2 ^ (8 * w - 1) * 2 := by
    conv_lhs => rw [hsplit]
    rw [pow_succ]
  have hpos : (0 : Int) < 2 ^ (8 * w) := by positivity
  have hnn : 0 ≤ v.emod (2 ^ (8 * w)) := Int.emod_nonneg v (ne_of_gt hpos)
  have hlt : v.emod (2 ^ (8 * w)) < 2 ^ (8 * w) := Int.emod_lt_of_pos v hpos
  have hcast : (((2 : Nat) ^ (8 * w - 1) : Nat) : Int) = (2 : Int) ^ (8 * w - 1) := by
    push_cast
    ring
  rcases le_or_lt 0 v with hv | hv
  · have hsmall : v < 2 ^ (8 * w) := by omega
    have hmod : v.emod (2 ^ (8 * w)) = v := Int.emod_eq_of_lt hv hsmall
    rw [toSigned, hmod]
    have htoNat : ((v.toNat : Int)) = v := Int.toNat_of_nonneg hv
    split
    · rename_i hcase
      exfalso
      have h5 : (((2 : Nat) ^ (8 * w - 1) : Nat) : Int) ≤ (v.toNat : Int) := by
        exact_mod_cast hcase
      rw [htoNat, hcast] at h5
      omega
    · rw [htoNat]
  · have hv2 : 0 ≤ v + 2 ^ (8 * w) := by omega
    have hv3 : v + 2 ^ (8 * w) < 2 ^ (8 * w) := by omega
    have hmod : v.emod (2 ^ (8 * w)) = v + 2 ^ (8 * w) := by
      have e1 := Int.add_mul_emod_self_left v ((2 : Int) ^ (8 * w)) 1
      rw [mul_one] at e1
      have e2 : (v + 2 ^ (8 * w)) % ((2 : Int) ^ (8 * w)) = v + 2 ^ (8 * w) :=
        Int.emod_eq_of_lt hv2 hv3
      calc v.emod (2 ^ (8 * w)) = (v + 2 ^ (8 * w)) % ((2 : Int) ^ (8 * w)) :=
            e1.symm
        _ = v + 2 ^ (8 * w) := e2
    rw [toSigned, hmod]
    have htoNat : (((v + 2 ^ (8 * w)).toNat : Int)) = v + 2 ^ (8 * w) :=
      Int.toNat_of_nonneg hv2
    split
    · rename_i hcase
      rw [htoNat]
      ring
    · rename_i hcase
      exfalso
      have h5 : ((v + 2 ^ (8 * w)).toNat : Int) <
          (((2 : Nat) ^ (8 * w - 1) : Nat) : Int) := by
        exact_mod_cast Nat.lt_of_not_le hcase
      rw [htoNat, hcast] at h5
      omega

theorem readSIntBE_packSigned (w : Nat) (hw : 0 < w) (v : Int)
    (bs pre post : List Nat) (h : packSigned w v = some bs) :
    readSIntBE w (pre ++ (bs ++ post)) (pre.length : Int) = some v ∧
      bs.length = w := by
  obtain ⟨h1, h2, hbs⟩ := packSigned_elim w v bs h
  subst hbs
  constructor
  · rw [readSIntBE, readUIntBE_pack w _ pre post (by
      have := emod_toNat_lt w v
      omega)]
    simp [toSigned_emod w hw v h1 h2]
  · simp

theorem pySlice_append (pre bs post : List Nat) :
    pySlice (pre ++ (bs ++ post)) (pre.length : Int)
      ((pre.length : Int) + (bs.length : Int)) = bs := by
  have hs : pySliceIdx (pre ++ (bs ++ post)).length (pre.length : Int) =
      pre.length := by
    simp only [pySliceIdx]
    rw [if_neg (by omega)]
    simp [List.length_append]
  have he : pySliceIdx (pre ++ (bs ++ post)).length
      ((pre.length : Int) + (bs.length : Int)) = pre.length + bs.length := by
    simp only [pySliceIdx]
    rw [if_neg (by omega)]
    have : ((pre.length : Int) + (bs.length : Int)).toNat =
        pre.length + bs.length := by omega
    rw [this]
    simp [List.length_append]
  rw [pySlice]
  simp only [hs, he]
  rw [List.drop_left]
  have : pre.length + bs.length - pre.length = bs.length := by omega
  rw [this, List.take_append_of_le_length (le_refl _), List.take_length]

/-! Round-trip facts for the non-recursive codecs. -/

theorem toSigned_bytesToNatBE_packSigned (w : Nat) (hw : 0 < w) (v : Int)
    (bs : List Nat) (h : packSigned w v = some bs) :
    toSigned w (bytesToNatBE bs) = v ∧ bs.length = w := by
  obtain ⟨h1, h2, hbs⟩ := packSigned_elim w v bs h
  subst hbs
  refine ⟨?_, by simp⟩
  rw [bytesToNatBE_natToBytesBE, pow256_eq,
    Nat.mod_eq_of_lt (emod_toNat_lt w v), toSigned_emod w hw v h1 h2]

theorem natCast_length_append (pre mid : List Nat) :
    ((pre ++ mid).length : Int) = (pre.length : Int) + (mid.length : Int) := by
  simp [List.length_append]

theorem stringTagSerialize_elim (s bs : List Nat)
    (h : stringTagSerialize s = some bs) :
    s.length < 65536 ∧ bs = natToBytesBE 2 s.length ++ s := by
  rw [stringTagSerialize, packUnsigned] at h
  split at h
  · rename_i hr
    refine ⟨by norm_num at hr ⊢; omega, ?_⟩
    simpa using h.symm
  · exact absurd h (by simp)

theorem stringTag_rt (s bs pre post : List Nat) (hutf : utf8Valid s = true)
    (h : stringTagSerialize s = some bs) :
    stringTagDeserialize (pre ++ (bs ++ post)) (pre.length : Int) =
      some (s, (pre.length : Int) + (bs.length : Int)) := by
  obtain ⟨hlen, hbs⟩ := stringTagSerialize_elim s bs h
  subst hbs
  set lenb := natToBytesBE 2 s.length with hlenb
  have hregroup : pre ++ ((lenb ++ s) ++ post) = pre ++ (lenb ++ (s ++ post)) := by
    simp [List.append_assoc]
  have hregroup2 : pre ++ ((lenb ++ s) ++ post) = (pre ++ lenb) ++ (s ++ post) := by
    simp [List.append_assoc]
  have hread : readUIntBE 2 (pre ++ ((lenb ++ s) ++ post)) (pre.length : Int) =
      some s.length := by
    rw [hregroup]
    exact readUIntBE_pack 2 s.length pre (s ++ post) (by norm_num; omega)
  rw [stringTagDeserialize, hread]
  have hoff : (pre.length : Int) + 2 = (((pre ++ lenb).length : Nat) : Int) := by
    rw [natCast_length_append]
    simp [hlenb]
  have hslice : pySlice (pre ++ ((lenb ++ s) ++ post))
      ((pre.length : Int) + 2) ((pre.length : Int) + 2 + (s.length : Int)) = s := by
    rw [hregroup2, hoff]
    exact pySlice_append (pre ++ lenb) s post
  simp only [Option.some_bind]
  rw [hslice, utf8Decode, if_pos hutf]
  simp only [Option.map_some']
  have : (pre.length : Int) + 2 + (s.length : Int) =
      (pre.length : Int) + (((lenb ++ s).length : Nat) : Int) := by
    rw [natCast_length_append]
    simp [hlenb]
    ring
  rw [this]

theorem map_toNat_natCast (l : List Int)
    (h : l.all (fun x => decide (0 ≤ x) && decide (x < 256)) = true) :
    (l.map Int.toNat).map (fun b : Nat => (b : Int)) = l := by
  induction l with
  | nil => rfl
  | cons x r ih =>
    simp only [List.all_cons, Bool.and_eq_true, decide_eq_true_eq] at h
    simp only [List.map_cons]
    rw [ih (by simpa using h.2)]
    simp [Int.toNat_of_nonneg h.1.1]

theorem byteArrayTagSerialize_elim (l : List Int) (bs : List Nat)
    (h : byteArrayTagSerialize l = some bs) :
    ∃ lenb, packSigned 4 (l.length : Int) = some lenb ∧
      l.all (fun x => decide (0 ≤ x) && decide (x < 256)) = true ∧
      bs = lenb ++ l.map Int.toNat := by
  rw [byteArrayTagSerialize] at h
  cases hpack : packSigned 4 (l.length : Int) with
  | none => rw [hpack] at h; exact absurd h (by simp)
  | some lenb =>
    rw [hpack] at h
    simp only [Option.some_bind] at h
    split at h
    · rename_i hall
      exact ⟨lenb, rfl, hall, (Option.some_inj.mp h).symm⟩
    · exact absurd h (by simp)

theorem byteArrayTag_rt (l : List Int) (bs pre post : List Nat)
    (h : byteArrayTagSerialize l = some bs) :
    byteArrayTagDeserialize (pre ++ (bs ++ post)) (pre.length : Int) =
      some (l, (pre.length : Int) + (bs.length : Int)) := by
  obtain ⟨lenb, hpack, hall, hbs⟩ := byteArrayTagSerialize_elim l bs h
  subst hbs
  set body := l.map Int.toNat with hbody
  have hbodylen : body.length = l.length := by simp [hbody]
  have hregroup : pre ++ ((lenb ++ body) ++ post) = pre ++ (lenb ++ (body ++ post)) := by
    simp [List.append_assoc]
  have hregroup2 : pre ++ ((lenb ++ body) ++ post) = (pre ++ lenb) ++ (body ++ post) := by
    simp [List.append_assoc]
  obtain ⟨hread, hlenb4⟩ := readSIntBE_packSigned 4 (by norm_num) (l.length : Int)
    lenb pre (body ++ post) hpack
  rw [byteArrayTagDeserialize, hregroup, hread]
  simp only [Option.map_some']
  have hoff : (pre.length : Int) + 4 = (((pre ++ lenb).length : Nat) : Int) := by
    rw [natCast_length_append, hlenb4]
    norm_num
  have hslice : pySlice (pre ++ (lenb ++ (body ++ post)))
      ((pre.length : Int) + 4) ((pre.length : Int) + 4 + (l.length : Int)) = body := by
    rw [← hregroup, hregroup2, hoff, ← hbodylen]
    exact pySlice_append (pre ++ lenb) body post
  rw [hslice]
  have hval : body.map (fun b : Nat => (b : Int)) = l := map_toNat_natCast l hall
  rw [hval]
  have : (pre.length : Int) + 4 + (l.length : Int) =
      (pre.length : Int) + (((lenb ++ body).length : Nat) : Int) := by
    rw [natCast_length_append, hlenb4, hbodylen]
    push_cast
    ring
  rw [this]

theorem packSignedGroup_elim (w : Nat) (hw : 0 < w) (l : List Int)
    (body : List Nat) (h : packSignedGroup w l = some body) :
    body.length = w * l.length ∧
      ∀ rest, readSGroup w l.length (body ++ rest) = l := by
  induction l generalizing body with
  | nil =>
    rw [packSignedGroup] at h
    have hb : body = [] := (Option.some_inj.mp h).symm
    subst hb
    exact ⟨by simp, fun rest => by simp [readSGroup]⟩
  | cons v r ih =>
    rw [packSignedGroup] at h
    cases hpack : packSigned w v with
    | none => rw [hpack] at h; exact absurd h (by simp)
    | some b =>
      rw [hpack] at h
      simp only [Option.some_bind] at h
      cases hrest : packSignedGroup w r with
      | none => rw [hrest] at h; exact absurd h (by simp)
      | some bodyr =>
        rw [hrest] at h
        simp only [Option.map_some'] at h
        have hb : body = b ++ bodyr := (Option.some_inj.mp h).symm
        subst hb
        obtain ⟨hdec, hblen⟩ := toSigned_bytesToNatBE_packSigned w hw v b hpack
        obtain ⟨hrlen, hrt⟩ := ih bodyr hrest
        constructor
        · simp [hblen, hrlen, Nat.mul_succ]
          ring
        · intro rest
          simp only [readSGroup]
          have htake : ((b ++ bodyr) ++ rest).take w = b := by
            rw [List.append_assoc, List.take_append_of_le_length (le_of_eq hblen.symm),
              ← hblen, List.take_length]
          have hdrop : ((b ++ bodyr) ++ rest).drop w = bodyr ++ rest := by
            rw [List.append_assoc, ← hblen, List.drop_left]
          rw [htake, hdrop, hdec, hrt rest]

theorem intArrayTagSerialize_elim (l : List Int) (bs : List Nat)
    (h : intArrayTagSerialize l = some bs) :
    ∃ lenb body, packSigned 4 (l.length : Int) = some lenb ∧
      packSignedGroup 4 l = some body ∧ bs = lenb ++ body := by
  rw [intArrayTagSerialize] at h
  cases hpack : packSigned 4 (l.length : Int) with
  | none => rw [hpack] at h; exact absurd h (by simp)
  | some lenb =>
    rw [hpack] at h
    simp only [Option.some_bind] at h
    cases hgroup : packSignedGroup 4 l with
    | none => rw [hgroup] at h; exact absurd h (by simp)
    | some body =>
      rw [hgroup] at h
      simp only [Option.map_some'] at h
      exact ⟨lenb, body, rfl, rfl, (Option.some_inj.mp h).symm⟩

theorem intArrayTag_rt (l : List Int) (bs pre post : List Nat)
    (h : intArrayTagSerialize l = some bs) :
    intArrayTagDeserialize (pre ++ (bs ++ post)) (pre.length : Int) =
      some (l, (pre.length : Int) + (bs.length : Int)) := by
  obtain ⟨lenb, body, hpack, hgroup, hbs⟩ := intArrayTagSerialize_elim l bs h
  subst hbs
  obtain ⟨hbodylen, hdec⟩ := packSignedGroup_elim 4 (by norm_num) l body hgroup
  have hregroup : pre ++ ((lenb ++ body) ++ post) = pre ++ (lenb ++ (body ++ post)) := by
    simp [List.append_assoc]
  have hregroup2 : pre ++ ((lenb ++ body) ++ post) = (pre ++ lenb) ++ (body ++ post) := by
    simp [List.append_assoc]
  obtain ⟨hread, hlenb4⟩ := readSIntBE_packSigned 4 (by norm_num) (l.length : Int)
    lenb pre (body ++ post) hpack
  rw [intArrayTagDeserialize, hregroup, hread]
  simp only [Option.some_bind]
  rw [if_neg (by omega)]
  have htoNat : ((l.length : Int)).toNat = l.length := Int.toNat_natCast _
  rw [htoNat]
  have hunpack : unpackBytes (4 * l.length) (pre ++ (lenb ++ (body ++ post)))
      ((pre.length : Int) + 4) = some body := by
    have hshape : pre ++ (lenb ++ (body ++ post)) = (pre ++ lenb) ++ (body ++ post) := by
      simp [List.append_assoc]
    have hoff : (pre.length : Int) + 4 = (((pre ++ lenb).length : Nat) : Int) := by
      rw [natCast_length_append, hlenb4]
      norm_num
    rw [hshape, hoff,
      unpackBytes_append (4 * l.length) (pre ++ lenb) body post (by omega),
      ← hbodylen, List.take_length]
  rw [hunpack]
  simp only [Option.map_some']
  have hval : readSGroup 4 l.length body = l := by
    have := hdec []
    simpa using this
  rw [hval]
  have : (pre.length : Int) + 4 + (l.length : Int) * 4 =
      (pre.length : Int) + (((lenb ++ body).length : Nat) : Int) := by
    rw [natCast_length_append, hlenb4, hbodylen]
    push_cast
    ring
  rw [this]

theorem longArrayTagSerialize_elim (l : List Int) (bs : List Nat)
    (h : longArrayTagSerialize l = some bs) :
    ∃ lenb body, packSigned 4 (l.length : Int) = some lenb ∧
      packSignedGroup 8 l = some body ∧ bs = lenb ++ body := by
  rw [longArrayTagSerialize] at h
  cases hpack : packSigned 4 (l.length : Int) with
  | none => rw [hpack] at h; exact absurd h (by simp)
  | some lenb =>
    rw [hpack] at h
    simp only [Option.some_bind] at h
    cases hgroup : packSignedGroup 8 l with
    | none => rw [hgroup] at h; exact absurd h (by simp)
    | some body =>
      rw [hgroup] at h
      simp only [Option.map_some'] at h
      exact ⟨lenb, body, rfl, rfl, (Option.some_inj.mp h).symm⟩

theorem longArrayTag_rt (l : List Int) (bs pre post : List Nat)
    (h : longArrayTagSerialize l = some bs) :
    longArrayTagDeserialize (pre ++ (bs ++ post)) (pre.length : Int) =
      some (l, (pre.length : Int) + (bs.length : Int)) := by
  obtain ⟨lenb, body, hpack, hgroup, hbs⟩ := longArrayTagSerialize_elim l bs h
  subst hbs
  obtain ⟨hbodylen, hdec⟩ := packSignedGroup_elim 8 (by norm_num) l body hgroup
  have hregroup : pre ++ ((lenb ++ body) ++ post) = pre ++ (lenb ++ (body ++ post)) := by
    simp [List.append_assoc]
  obtain ⟨hread, hlenb4⟩ := readSIntBE_packSigned 4 (by norm_num) (l.length : Int)
    lenb pre (body ++ post) hpack
  rw [longArrayTagDeserialize, hregroup, hread]
  simp only [Option.some_bind]
  rw [if_neg (by omega)]
  have htoNat : ((l.length : Int)).toNat = l.length := Int.toNat_natCast _
  rw [htoNat]
  have hunpack : unpackBytes (8 * l.length) (pre ++ (lenb ++ (body ++ post)))
      ((pre.length : Int) + 4) = some body := by
    have hshape : pre ++ (lenb ++ (body ++ post)) = (pre ++ lenb) ++ (body ++ post) := by
      simp [List.append_assoc]
    have hoff : (pre.length : Int) + 4 = (((pre ++ lenb).length : Nat) : Int) := by
      rw [natCast_length_append, hlenb4]
      norm_num
    rw [hshape, hoff,
      unpackBytes_append (8 * l.length) (pre ++ lenb) body post (by omega),
      ← hbodylen, List.take_length]
  rw [hunpack]
  simp only [Option.map_some']
  have hval : readSGroup 8 l.length body = l := by
    have := hdec []
    simpa using this
  rw [hval]
  have : (pre.length : Int) + 4 + (l.length : Int) * 8 =
      (pre.length : Int) + (((lenb ++ body).length : Nat) : Int) := by
    rw [natCast_length_append, hlenb4, hbodylen]
    push_cast
    ring
  rw [this]

/-! Structural helpers: tag ids, sizes, costs, canonicalization. -/

theorem tagTypeId_bounds (t : NBTTag) :
    1 ≤ tagTypeId t ∧ tagTypeId t ≤ 12 := by
  cases t <;> simp [tagTypeId]

theorem tagTypeId_canonLtt (t : NBTTag) :
    tagTypeId (canonLtt t) = tagTypeId t := by
  cases t with
  | listT es ltt => cases es <;> simp [canonLtt, tagTypeId]
  | _ => simp [canonLtt, tagTypeId]

theorem canonList_eq_map (es : List NBTTag) :
    canonList es = es.map canonLtt := by
  induction es with
  | nil => rfl
  | cons e r ih => simp [canonList, ih]

theorem canonEnts_eq_map (es : List (List Nat × NBTTag)) :
    canonEnts es = es.map (fun e => (e.1, canonLtt e.2)) := by
  induction es with
  | nil => rfl
  | cons e r ih =>
    cases e
    simp [canonEnts, ih]

theorem tagSizeN_pos (t : NBTTag) : 1 ≤ tagSizeN t := by
  cases t <;> simp [tagSizeN]

theorem mem_tagSizeN_le_listSizeN (e : NBTTag) (es : List NBTTag)
    (h : e ∈ es) : tagSizeN e ≤ listSizeN es := by
  induction es with
  | nil => cases h
  | cons x r ih =>
    rcases List.mem_cons.mp h with h1 | h2
    · subst h1
      simp [listSizeN]
    · have := ih h2
      simp [listSizeN]
      omega

theorem mem_tagSizeN_le_entsSizeN (x : List Nat × NBTTag)
    (es : List (List Nat × NBTTag)) (h : x ∈ es) :
    tagSizeN x.2 ≤ entsSizeN es := by
  induction es with
  | nil => cases h
  | cons y r ih =>
    rcases List.mem_cons.mp h with h1 | h2
    · subst h1
      simp [entsSizeN]
    · have := ih h2
      simp [entsSizeN]
      omega

theorem mem_tagCost_le_listCost (e : NBTTag) (es : List NBTTag)
    (h : e ∈ es) : tagCost e ≤ listCost es := by
  induction es with
  | nil => cases h
  | cons x r ih =>
    rcases List.mem_cons.mp h with h1 | h2
    · subst h1
      simp [listCost]
    · have := ih h2
      simp [listCost]
      omega

theorem mem_tagCost_lt_entsCost (x : List Nat × NBTTag)
    (es : List (List Nat × NBTTag)) (h : x ∈ es) :
    tagCost x.2 < entsCost es := by
  induction es with
  | nil => cases h
  | cons y r ih =>
    rcases List.mem_cons.mp h with h1 | h2
    · subst h1
      cases x
      simp [entsCost]
      omega
    · have := ih h2
      cases y
      simp [entsCost]
      omega

theorem length_lt_entsCost (es : List (List Nat × NBTTag)) :
    es.length + 1 ≤ entsCost es := by
  induction es with
  | nil => simp [entsCost]
  | cons y r ih =>
    cases y
    simp [entsCost] at *
    omega

theorem validList_mem (es : List NBTTag) (e : NBTTag) (h : e ∈ es)
    (hv : validList es = true) : validTag e = true := by
  induction es with
  | nil => cases h
  | cons x r ih =>
    rw [validList] at hv
    simp only [Bool.and_eq_true] at hv
    rcases List.mem_cons.mp h with h1 | h2
    · subst h1; exact hv.1
    · exact ih h2 hv.2

theorem validEnts_mem (es : List (List Nat × NBTTag)) (x : List Nat × NBTTag)
    (h : x ∈ es) (hv : validEnts es = true) : validTag x.2 = true := by
  induction es with
  | nil => cases h
  | cons y r ih =>
    obtain ⟨k, t⟩ := y
    rw [validEnts] at hv
    simp only [Bool.and_eq_true] at hv
    rcases List.mem_cons.mp h with h1 | h2
    · subst h1; exact hv.1.2
    · exact ih h2 hv.2

theorem packSigned_some (w : Nat) (v : Int)
    (h1 : -(2 ^ (8 * w - 1) : Int) ≤ v) (h2 : v < 2 ^ (8 * w - 1)) :
    packSigned w v = some (natToBytesBE w (v.emod (2 ^ (8 * w))).toNat) := by
  rw [packSigned, if_pos ⟨h1, h2⟩]

theorem packUnsigned_some (w n : Nat) (h : n < 2 ^ (8 * w)) :
    packUnsigned w n = some (natToBytesBE w n) := by
  rw [packUnsigned, if_pos h]

/-! Serialization succeeds on valid tags. -/

theorem packSignedGroup_ok (w : Nat) (bound : Int) (l : List Int)
    (hb : bound ≤ 2 ^ (8 * w - 1))
    (h : l.all (fun x => decide (-bound ≤ x ∧ x < bound)) = true) :
    ∃ body, packSignedGroup w l = some body := by
  induction l with
  | nil => exact ⟨[], rfl⟩
  | cons v r ih =>
    simp only [List.all_cons, Bool.and_eq_true, decide_eq_true_eq] at h
    obtain ⟨body, hbody⟩ := ih (by simpa using h.2)
    refine ⟨natToBytesBE w (v.emod (2 ^ (8 * w))).toNat ++ body, ?_⟩
    rw [packSignedGroup, packSigned, if_pos (by omega)]
    simp [hbody]

theorem serializeListElems_ok (es : List NBTTag)
    (h : ∀ e ∈ es, ∃ bs, serializeTag e = some bs) :
    ∃ bs, serializeListElems es = some bs := by
  induction es with
  | nil => exact ⟨[], rfl⟩
  | cons e r ih =>
    obtain ⟨b, hb⟩ := h e (List.mem_cons_self e r)
    obtain ⟨bs, hbs⟩ := ih (fun x hx => h x (List.mem_cons_of_mem e hx))
    refine ⟨b ++ bs, ?_⟩
    rw [serializeListElems, hb]
    simp [hbs]

theorem serializeCompoundEntries_ok (es : List (List Nat × NBTTag))
    (hv : validEnts es = true)
    (h : ∀ e ∈ es, ∃ bs, serializeTag e.2 = some bs) :
    ∃ bs, serializeCompoundEntries es = some bs := by
  induction es with
  | nil => exact ⟨[], rfl⟩
  | cons e r ih =>
    obtain ⟨k, t⟩ := e
    rw [validEnts] at hv
    simp only [Bool.and_eq_true, decide_eq_true_eq] at hv
    obtain ⟨⟨⟨hk, _⟩, _⟩, hr⟩ := hv
    obtain ⟨tb, htb⟩ := h (k, t) (List.mem_cons_self _ r)
    obtain ⟨restb, hrestb⟩ := ih hr (fun x hx => h x (List.mem_cons_of_mem _ hx))
    refine ⟨[tagTypeId t] ++ natToBytesBE 2 k.length ++ k ++ tb ++ restb, ?_⟩
    rw [serializeCompoundEntries, packUnsigned, if_pos (by norm_num; omega)]
    simp [htb, hrestb]

theorem serializeTag_ok : ∀ n t, tagSizeN t ≤ n → validTag t = true →
    ∃ bs, serializeTag t = some bs := by
  intro n
  induction n with
  | zero =>
    intro t hsize _
    have := tagSizeN_pos t
    omega
  | succ n ih =>
    intro t hsize hvalid
    cases t with
    | byteT v =>
      rw [validTag] at hvalid
      simp only [decide_eq_true_eq] at hvalid
      exact ⟨_, by rw [serializeTag, packSigned, if_pos (by norm_num; omega)]⟩
    | shortT v =>
      rw [validTag] at hvalid
      simp only [decide_eq_true_eq] at hvalid
      exact ⟨_, by rw [serializeTag, packSigned, if_pos (by norm_num; omega)]⟩
    | intT v =>
      rw [validTag] at hvalid
      simp only [decide_eq_true_eq] at hvalid
      exact ⟨_, by rw [serializeTag, packSigned, if_pos (by norm_num; omega)]⟩
    | longT v =>
      rw [validTag] at hvalid
      simp only [decide_eq_true_eq] at hvalid
      exact ⟨_, by rw [serializeTag, packSigned, if_pos (by norm_num; omega)]⟩
    | floatT bits => exact ⟨_, rfl⟩
    | doubleT bits => exact ⟨_, rfl⟩
    | byteArrayT l =>
      rw [validTag] at hvalid
      simp only [Bool.and_eq_true, decide_eq_true_eq] at hvalid
      obtain ⟨hlen, hall⟩ := hvalid
      have h2 : (l.length : Int) < 2 ^ (8 * 4 - 1) := by
        norm_num at hlen ⊢
        omega
      have h1 : -(2 ^ (8 * 4 - 1) : Int) ≤ (l.length : Int) := by
        norm_num
        omega
      have hpack := packSigned_some 4 (l.length : Int) h1 h2
      rw [← Option.isSome_iff_exists]
      rw [serializeTag, byteArrayTagSerialize, hpack]
      simp only [List.all_eq_true, Bool.and_eq_true, decide_eq_true_eq] at hall
      simp [hall]
      intro x hx
      exact ⟨(hall x hx).1, (hall x hx).2⟩
    | stringT s =>
      rw [validTag] at hvalid
      simp only [Bool.and_eq_true, decide_eq_true_eq] at hvalid
      have hpack := packUnsigned_some 2 s.length (by norm_num; omega)
      exact ⟨_, by
        rw [serializeTag, stringTagSerialize, hpack]
        rfl⟩
    | listT es ltt =>
      cases es with
      | nil => exact ⟨_, rfl⟩
      | cons e r =>
        rw [validTag] at hvalid
        simp only [Bool.and_eq_true, decide_eq_true_eq] at hvalid
        obtain ⟨⟨⟨hlen, _⟩, hve⟩, hvr⟩ := hvalid
        have hpoint : ∀ x ∈ e :: r, ∃ bs, serializeTag x = some bs := by
          intro x hx
          apply ih x _ ?_
          · have h1 := mem_tagSizeN_le_listSizeN x (e :: r) hx
            have : tagSizeN (.listT (e :: r) ltt) = listSizeN (e :: r) + 1 :=
              rfl
            omega
          · rcases List.mem_cons.mp hx with h1 | h2
            · subst h1; exact hve
            · exact validList_mem r x h2 hvr
        obtain ⟨body, hbody⟩ := serializeListElems_ok (e :: r) hpoint
        have h2 : (((e :: r).length : Nat) : Int) < 2 ^ (8 * 4 - 1) := by
          norm_num at hlen ⊢
          omega
        have h1 : -(2 ^ (8 * 4 - 1) : Int) ≤ (((e :: r).length : Nat) : Int) := by
          norm_num
          omega
        have hpack := packSigned_some 4 (((e :: r).length : Nat) : Int) h1 h2
        rw [← Option.isSome_iff_exists]
        rw [serializeTag, hpack]
        simp [hbody]
    | compoundT es =>
      rw [validTag] at hvalid
      simp only [Bool.and_eq_true, decide_eq_true_eq] at hvalid
      have hpoint : ∀ x ∈ es, ∃ bs, serializeTag x.2 = some bs := by
        intro x hx
        apply ih x.2 _ (validEnts_mem es x hx hvalid.2)
        have h1 := mem_tagSizeN_le_entsSizeN x es hx
        have : tagSizeN (.compoundT es) = entsSizeN es + 1 := rfl
        omega
      obtain ⟨body, hbody⟩ := serializeCompoundEntries_ok es hvalid.2 hpoint
      exact ⟨_, by rw [serializeTag, hbody]; rfl⟩
    | intArrayT l =>
      rw [validTag] at hvalid
      simp only [Bool.and_eq_true, decide_eq_true_eq] at hvalid
      obtain ⟨body, hbody⟩ := packSignedGroup_ok 4 (2 ^ 31) l (by norm_num)
        (by simpa using hvalid.2)
      obtain ⟨hlen, _⟩ := hvalid
      have h2 : (l.length : Int) < 2 ^ (8 * 4 - 1) := by
        norm_num at hlen ⊢
        omega
      have h1 : -(2 ^ (8 * 4 - 1) : Int) ≤ (l.length : Int) := by
        norm_num
        omega
      have hpack := packSigned_some 4 (l.length : Int) h1 h2
      rw [← Option.isSome_iff_exists]
      rw [serializeTag, intArrayTagSerialize, hpack]
      simp [hbody]
    | longArrayT l =>
      rw [validTag] at hvalid
      simp only [Bool.and_eq_true, decide_eq_true_eq] at hvalid
      obtain ⟨body, hbody⟩ := packSignedGroup_ok 8 (2 ^ 63) l (by norm_num)
        (by simpa using hvalid.2)
      obtain ⟨hlen, _⟩ := hvalid
      have h2 : (l.length : Int) < 2 ^ (8 * 4 - 1) := by
        norm_num at hlen ⊢
        omega
      have h1 : -(2 ^ (8 * 4 - 1) : Int) ≤ (l.length : Int) := by
        norm_num
        omega
      have hpack := packSigned_some 4 (l.length : Int) h1 h2
      rw [← Option.isSome_iff_exists]
      rw [serializeTag, longArrayTagSerialize, hpack]
      simp [hbody]

/-! Dictionary lemmas. -/

theorem dictLookup_eq_none_iff (d : List (List Nat × NBTTag)) (k : List Nat) :
    dictLookup d k = none ↔ ∀ e ∈ d, e.1 ≠ k := by
  rw [dictLookup]
  simp only [Option.map_eq_none', List.find?_eq_none, decide_eq_true_eq]

theorem dictSet_of_lookup_none (d : List (List Nat × NBTTag)) (k : List Nat)
    (v : NBTTag) (h : dictLookup d k = none) : dictSet d k v = d ++ [(k, v)] := by
  rw [dictSet, if_neg]
  rw [dictLookup_eq_none_iff] at h
  simp only [List.any_eq_true, decide_eq_true_eq, not_exists, not_and]
  exact fun e he => h e he

theorem dictLookup_append_single_none (d : List (List Nat × NBTTag))
    (k k2 : List Nat) (v : NBTTag) (h1 : dictLookup d k2 = none)
    (h2 : k ≠ k2) : dictLookup (d ++ [(k, v)]) k2 = none := by
  rw [dictLookup_eq_none_iff] at h1 ⊢
  intro e he
  rcases List.mem_append.mp he with h | h
  · exact h1 e h
  · rcases List.mem_singleton.mp h with rfl
    exact h2

/-! Elimination lemmas for the recursive serializer. -/

theorem packUnsigned_elim (w n : Nat) (bs : List Nat)
    (h : packUnsigned w n = some bs) :
    n < 2 ^ (8 * w) ∧ bs = natToBytesBE w n := by
  rw [packUnsigned] at h
  split at h
  · rename_i hr
    exact ⟨hr, (Option.some_inj.mp h).symm⟩
  · exact absurd h (by simp)

theorem serializeListElems_elim_cons (e : NBTTag) (r : List NBTTag)
    (body : List Nat) (h : serializeListElems (e :: r) = some body) :
    ∃ b rest, serializeTag e = some b ∧ serializeListElems r = some rest ∧
      body = b ++ rest := by
  rw [serializeListElems] at h
  cases hb : serializeTag e with
  | none => rw [hb] at h; exact absurd h (by simp)
  | some b =>
    rw [hb] at h
    simp only [Option.some_bind] at h
    cases hr : serializeListElems r with
    | none => rw [hr] at h; exact absurd h (by simp)
    | some rest =>
      rw [hr] at h
      simp only [Option.map_some'] at h
      exact ⟨b, rest, rfl, rfl, (Option.some_inj.mp h).symm⟩

theorem serializeCompoundEntries_elim_cons (k : List Nat) (t : NBTTag)
    (r : List (List Nat × NBTTag)) (body : List Nat)
    (h : serializeCompoundEntries ((k, t) :: r) = some body) :
    ∃ klen tb restb, packUnsigned 2 k.length = some klen ∧
      serializeTag t = some tb ∧
      serializeCompoundEntries r = some restb ∧
      body = [tagTypeId t] ++ klen ++ k ++ tb ++ restb := by
  rw [serializeCompoundEntries] at h
  cases hk : packUnsigned 2 k.length with
  | none => rw [hk] at h; exact absurd h (by simp)
  | some klen =>
    rw [hk] at h
    simp only [Option.some_bind] at h
    cases ht : serializeTag t with
    | none => rw [ht] at h; exact absurd h (by simp)
    | some tb =>
      rw [ht] at h
      simp only [Option.some_bind] at h
      cases hr : serializeCompoundEntries r with
      | none => rw [hr] at h; exact absurd h (by simp)
      | some restb =>
        rw [hr] at h
        simp only [Option.map_some'] at h
        exact ⟨klen, tb, restb, rfl, rfl, rfl, (Option.some_inj.mp h).symm⟩

theorem serializeTag_listT_cons_elim (e : NBTTag) (r : List NBTTag)
    (ltt : Option Nat) (bs : List Nat)
    (h : serializeTag (.listT (e :: r) ltt) = some bs) :
    ∃ cb body, packSigned 4 (((e :: r).length : Nat) : Int) = some cb ∧
      serializeListElems (e :: r) = some body ∧
      bs = [tagTypeId e] ++ cb ++ body := by
  rw [serializeTag] at h
  cases hp : packSigned 4 (((e :: r).length : Nat) : Int) with
  | none => rw [hp] at h; exact absurd h (by simp)
  | some cb =>
    rw [hp] at h
    simp only [Option.some_bind] at h
    cases hb : serializeListElems (e :: r) with
    | none => rw [hb] at h; exact absurd h (by simp)
    | some body =>
      rw [hb] at h
      simp only [Option.map_some'] at h
      exact ⟨cb, body, rfl, rfl, (Option.some_inj.mp h).symm⟩

theorem serializeTag_compoundT_elim (es : List (List Nat × NBTTag))
    (bs : List Nat) (h : serializeTag (.compoundT es) = some bs) :
    ∃ body, serializeCompoundEntries es = some body ∧ bs = body ++ [0] := by
  rw [serializeTag] at h
  cases hb : serializeCompoundEntries es with
  | none => rw [hb] at h; exact absurd h (by simp)
  | some body =>
    rw [hb] at h
    simp only [Option.map_some'] at h
    exact ⟨body, rfl, (Option.some_inj.mp h).symm⟩

/-! The round-trip statement and its proof. -/

/-- Round-trip property of one tag at a fixed decoder fuel: wherever its
serialization sits inside a larger buffer, decoding with its variant id at
that position rebuilds exactly the canonicalized tag and consumes exactly
the serialized bytes. -/
def RTtagAt (fuel : Nat) (t : NBTTag) : Prop :=
  ∀ bs, serializeTag t = some bs → ∀ pre post : List Nat,
    deserializeById fuel (tagTypeId t) (pre ++ (bs ++ post))
      (pre.length : Int) =
      some (canonLtt t, (pre.length : Int) + (bs.length : Int))

/-- Decoding the concatenated element serializations of a homogeneous list
rebuilds the canonicalized elements in order, consuming exactly the
concatenation, provided each element round-trips at the given fuel. -/
theorem listElems_rt (fuel eid : Nat) (es : List NBTTag)
    (hpt : ∀ e ∈ es, RTtagAt fuel e)
    (hid : ∀ e ∈ es, tagTypeId e = eid) :
    ∀ body, serializeListElems es = some body →
    ∀ pre post : List Nat,
      deserializeListElemsF (fun d o => deserializeById fuel eid d o)
        es.length (pre ++ (body ++ post)) (pre.length : Int) =
      some (canonList es, (pre.length : Int) + (body.length : Int)) := by
  induction es with
  | nil =>
    intro body hs pre post
    have hb : body = [] := by
      rw [serializeListElems] at hs
      exact (Option.some_inj.mp hs).symm
    subst hb
    simp [deserializeListElemsF, canonList]
  | cons e r ih =>
    intro body hs pre post
    obtain ⟨b, rest, hb, hrest, hbody⟩ := serializeListElems_elim_cons e r body hs
    subst hbody
    have hre : pre ++ ((b ++ rest) ++ post) = pre ++ (b ++ (rest ++ post)) := by
      simp
    have hde : deserializeById fuel eid (pre ++ (b ++ (rest ++ post)))
        (pre.length : Int) =
        some (canonLtt e, (pre.length : Int) + (b.length : Int)) := by
      have h1 := hpt e (List.mem_cons_self e r) b hb pre (rest ++ post)
      rw [hid e (List.mem_cons_self e r)] at h1
      exact h1
    have hrec := ih (fun x hx => hpt x (List.mem_cons_of_mem e hx))
      (fun x hx => hid x (List.mem_cons_of_mem e hx)) rest hrest (pre ++ b) post
    have hshape : (pre ++ b) ++ (rest ++ post) = pre ++ (b ++ (rest ++ post)) := by
      simp
    rw [hshape, natCast_length_append pre b] at hrec
    rw [List.length_cons, hre]
    rw [deserializeListElemsF, hde]
    simp only [hrec]
    have hlen : (pre.length : Int) + (b.length : Int) + (rest.length : Int) =
        (pre.length : Int) + (((b ++ rest).length : Nat) : Int) := by
      rw [natCast_length_append]
      ring
    rw [canonList, hlen]

/-- Decoding the serialized entries of a compound followed by the `End`
terminator accumulates exactly the canonicalized entries, in order, onto any
accumulator whose keys are disjoint from the entry keys. -/
theorem compoundLoop_rt (fuel : Nat) (es : List (List Nat × NBTTag))
    (hpt : ∀ e ∈ es, RTtagAt fuel e.2) :
    ∀ body, serializeCompoundEntries es = some body →
    (es.map Prod.fst).Nodup →
    ∀ loopFuel, es.length + 1 ≤ loopFuel →
    ∀ acc, (∀ e ∈ es, dictLookup acc e.1 = none) →
    ∀ pre post : List Nat,
      deserializeCompoundLoopF (fun i d o => deserializeById fuel i d o)
        loopFuel acc (pre ++ ((body ++ [0]) ++ post)) (pre.length : Int) =
      some (acc ++ canonEnts es,
        (pre.length : Int) + (body.length : Int) + 1) := by
  induction es with
  | nil =>
    intro body hs _ loopFuel hlf acc _ pre post
    have hb : body = [] := by
      rw [serializeCompoundEntries] at hs
      exact (Option.some_inj.mp hs).symm
    subst hb
    cases loopFuel with
    | zero => omega
    | succ lf =>
      have hd : pre ++ ((([] : List Nat) ++ [0]) ++ post) = pre ++ (0 :: post) := by
        simp
      rw [hd, deserializeCompoundLoopF, readUIntBE_single pre post 0]
      simp [canonEnts]
  | cons kt r ih =>
    obtain ⟨k, t⟩ := kt
    intro body hs hnodup loopFuel hlf acc hacc pre post
    obtain ⟨klen, tb, restb, hk, ht, hr, hbody⟩ :=
      serializeCompoundEntries_elim_cons k t r body hs
    obtain ⟨hklt, hklen⟩ := packUnsigned_elim 2 k.length klen hk
    subst hklen
    subst hbody
    cases loopFuel with
    | zero => simp at hlf
    | succ lf =>
      set data := pre ++
        ((([tagTypeId t] ++ natToBytesBE 2 k.length ++ k ++ tb ++ restb) ++ [0])
          ++ post) with hdata
      have s1 : readUIntBE 1 data (pre.length : Int) = some (tagTypeId t) := by
        have hd : data = pre ++ (tagTypeId t ::
            (natToBytesBE 2 k.length ++ k ++ tb ++ restb ++ [0] ++ post)) := by
          rw [hdata]
          simp
        rw [hd]
        exact readUIntBE_single pre _ (tagTypeId t)
      have htid0 : ¬(tagTypeId t = 0) := by
        have := tagTypeId_bounds t
        omega
      have s2 : readUIntBE 2 data ((pre.length : Int) + 1) = some k.length := by
        have h2 := readUIntBE_pack 2 k.length (pre ++ [tagTypeId t])
          (k ++ (tb ++ (restb ++ ([0] ++ post)))) (by norm_num at hklt ⊢; omega)
        have hd : (pre ++ [tagTypeId t]) ++ (natToBytesBE 2 k.length ++
            (k ++ (tb ++ (restb ++ ([0] ++ post))))) = data := by
          rw [hdata]
          simp
        have hoff : (((pre ++ [tagTypeId t]).length : Nat) : Int) =
            (pre.length : Int) + 1 := by
          rw [natCast_length_append]
          simp
        rw [hd, hoff] at h2
        exact h2
      have sName : pySlice data ((pre.length : Int) + 3)
          ((pre.length : Int) + 3 + (k.length : Int)) = k := by
        have h3 := pySlice_append (pre ++ [tagTypeId t] ++ natToBytesBE 2 k.length)
          k (tb ++ (restb ++ ([0] ++ post)))
        have hd : (pre ++ [tagTypeId t] ++ natToBytesBE 2 k.length) ++
            (k ++ (tb ++ (restb ++ ([0] ++ post)))) = data := by
          rw [hdata]
          simp
        have hoff : (((pre ++ [tagTypeId t] ++ natToBytesBE 2 k.length).length
            : Nat) : Int) = (pre.length : Int) + 3 := by
          simp only [List.length_append, List.length_cons, List.length_nil,
            length_natToBytesBE]
          push_cast
          ring
        rw [hd, hoff] at h3
        exact h3
      have s4 : deserializeById fuel (tagTypeId t) data
          ((pre.length : Int) + 3 + (k.length : Int)) =
          some (canonLtt t,
            (pre.length : Int) + 3 + (k.length : Int) + (tb.length : Int)) := by
        have h4 := hpt (k, t) (List.mem_cons_self _ r) tb ht
          (pre ++ [tagTypeId t] ++ natToBytesBE 2 k.length ++ k)
          (restb ++ ([0] ++ post))
        have hd : (pre ++ [tagTypeId t] ++ natToBytesBE 2 k.length ++ k) ++
            (tb ++ (restb ++ ([0] ++ post))) = data := by
          rw [hdata]
          simp
        have hoff : (((pre ++ [tagTypeId t] ++ natToBytesBE 2 k.length ++ k).length
            : Nat) : Int) = (pre.length : Int) + 3 + (k.length : Int) := by
          simp only [List.length_append, List.length_cons, List.length_nil,
            length_natToBytesBE]
          push_cast
          ring
        rw [hd, hoff] at h4
        exact h4
      have hacck : dictLookup acc k = none := hacc (k, t) (List.mem_cons_self _ r)
      have hknotmem : k ∉ r.map Prod.fst := by
        simp only [List.map_cons, List.nodup_cons] at hnodup
        exact hnodup.1
      have s5 : deserializeCompoundLoopF (fun i d o => deserializeById fuel i d o)
          lf (dictSet acc k (canonLtt t)) data
          ((pre.length : Int) + 3 + (k.length : Int) + (tb.length : Int)) =
          some ((acc ++ [(k, canonLtt t)]) ++ canonEnts r,
            ((pre.length : Int) + 3 + (k.length : Int) + (tb.length : Int))
              + (restb.length : Int) + 1) := by
        rw [dictSet_of_lookup_none acc k (canonLtt t) hacck]
        have h5 := ih (fun e he => hpt e (List.mem_cons_of_mem _ he)) restb hr
          (by simp only [List.map_cons, List.nodup_cons] at hnodup
              exact hnodup.2)
          lf (by simp at hlf; omega)
          (acc ++ [(k, canonLtt t)])
          (by intro e he
              refine dictLookup_append_single_none acc k e.1 (canonLtt t)
                (hacc e (List.mem_cons_of_mem _ he)) ?_
              intro hke
              exact hknotmem (hke ▸ List.mem_map_of_mem Prod.fst he))
          (pre ++ [tagTypeId t] ++ natToBytesBE 2 k.length ++ k ++ tb) post
        have hd : (pre ++ [tagTypeId t] ++ natToBytesBE 2 k.length ++ k ++ tb) ++
            ((restb ++ [0]) ++ post) = data := by
          rw [hdata]
          simp
        have hoff : (((pre ++ [tagTypeId t] ++ natToBytesBE 2 k.length ++ k ++ tb).length
            : Nat) : Int) =
            (pre.length : Int) + 3 + (k.length : Int) + (tb.length : Int) := by
          simp only [List.length_append, List.length_cons, List.length_nil,
            length_natToBytesBE]
          push_cast
          ring
        rw [hd, hoff] at h5
        exact h5
      rw [deserializeCompoundLoopF, s1]
      simp only [if_neg htid0]
      rw [s2]
      simp only [sName]
      rw [s4]
      simp only [s5]
      have hlistEq : (acc ++ [(k, canonLtt t)]) ++ canonEnts r =
          acc ++ canonEnts ((k, t) :: r) := by
        rw [canonEnts]
        simp
      have hoffEq : ((pre.length : Int) + 3 + (k.length : Int) +
            (tb.length : Int)) + (restb.length : Int) + 1 =
          (pre.length : Int) +
            ((([tagTypeId t] ++ natToBytesBE 2 k.length ++ k ++ tb ++ restb).length
              : Nat) : Int) + 1 := by
        simp only [List.length_append, List.length_cons, List.length_nil,
          length_natToBytesBE]
        push_cast
        ring
      rw [hlistEq, hoffEq]

/-- Main round-trip induction: every valid tag round-trips through
serialization at any sufficient fuel, in any surrounding buffer. -/
theorem roundTripAt : ∀ n t, tagSizeN t ≤ n → validTag t = true →
    ∀ fuel, tagCost t ≤ fuel → RTtagAt fuel t := by
  intro n
  induction n with
  | zero =>
    intro t hsize _
    have := tagSizeN_pos t
    omega
  | succ n ih =>
    intro t hsize hvalid fuel hfuel
    have hcost1 : 1 ≤ tagCost t := by
      cases t <;> simp [tagCost]
    cases fuel with
    | zero => omega
    | succ f =>
    intro bs hs pre post
    cases t with
    | byteT v =>
      rw [serializeTag] at hs
      obtain ⟨hread, hlen⟩ := readSIntBE_packSigned 1 (by norm_num) v bs pre post hs
      rw [tagTypeId, deserializeById]
      norm_num
      rw [hread]
      simp [canonLtt, hlen]
    | shortT v =>
      rw [serializeTag] at hs
      obtain ⟨hread, hlen⟩ := readSIntBE_packSigned 2 (by norm_num) v bs pre post hs
      rw [tagTypeId, deserializeById]
      norm_num
      rw [hread]
      simp [canonLtt, hlen]
    | intT v =>
      rw [serializeTag] at hs
      obtain ⟨hread, hlen⟩ := readSIntBE_packSigned 4 (by norm_num) v bs pre post hs
      rw [tagTypeId, deserializeById]
      norm_num
      rw [hread]
      simp [canonLtt, hlen]
    | longT v =>
      rw [serializeTag] at hs
      obtain ⟨hread, hlen⟩ := readSIntBE_packSigned 8 (by norm_num) v bs pre post hs
      rw [tagTypeId, deserializeById]
      norm_num
      rw [hread]
      simp [canonLtt, hlen]
    | floatT bits =>
      rw [serializeTag] at hs
      have hbs : bs = natToBytesBE 4 bits := (Option.some_inj.mp hs).symm
      subst hbs
      rw [validTag] at hvalid
      simp only [decide_eq_true_eq] at hvalid
      have hread := readUIntBE_pack 4 bits pre post (by norm_num; omega)
      rw [tagTypeId, deserializeById]
      norm_num
      rw [hread]
      simp [canonLtt]
    | doubleT bits =>
      rw [serializeTag] at hs
      have hbs : bs = natToBytesBE 8 bits := (Option.some_inj.mp hs).symm
      subst hbs
      rw [validTag] at hvalid
      simp only [decide_eq_true_eq] at hvalid
      have hread := readUIntBE_pack 8 bits pre post (by norm_num; omega)
      rw [tagTypeId, deserializeById]
      norm_num
      rw [hread]
      simp [canonLtt]
    | byteArrayT l =>
      rw [serializeTag] at hs
      have hread := byteArrayTag_rt l bs pre post hs
      rw [tagTypeId, deserializeById]
      norm_num
      rw [hread]
      simp [canonLtt]
    | stringT s =>
      rw [serializeTag] at hs
      rw [validTag] at hvalid
      simp only [Bool.and_eq_true, decide_eq_true_eq] at hvalid
      have hread := stringTag_rt s bs pre post hvalid.2 hs
      rw [tagTypeId, deserializeById]
      norm_num
      rw [hread]
      simp [canonLtt]
    | intArrayT l =>
      rw [serializeTag] at hs
      have hread := intArrayTag_rt l bs pre post hs
      rw [tagTypeId, deserializeById]
      norm_num
      rw [hread]
      simp [canonLtt]
    | longArrayT l =>
      rw [serializeTag] at hs
      have hread := longArrayTag_rt l bs pre post hs
      rw [tagTypeId, deserializeById]
      norm_num
      rw [hread]
      simp [canonLtt]
    | listT es ltt =>
      cases es with
      | nil =>
        rw [serializeTag] at hs
        have hbs : bs = [0] ++ natToBytesBE 4 0 := (Option.some_inj.mp hs).symm
        subst hbs
        set data := pre ++ (([0] ++ natToBytesBE 4 0) ++ post) with hdata
        have s1 : readUIntBE 1 data (pre.length : Int) = some 0 := by
          have hd : data = pre ++ (0 :: (natToBytesBE 4 0 ++ post)) := by
            rw [hdata]
            simp
          rw [hd]
          exact readUIntBE_single pre _ 0
        have s2 : readSIntBE 4 data ((pre.length : Int) + 1) = some 0 := by
          have h2 := readUIntBE_pack 4 0 (pre ++ [0]) post (by norm_num)
          have hd : (pre ++ [0]) ++ (natToBytesBE 4 0 ++ post) = data := by
            rw [hdata]
            simp
          have hoff : (((pre ++ [0]).length : Nat) : Int) = (pre.length : Int) + 1 := by
            rw [natCast_length_append]
            simp
          rw [hd, hoff] at h2
          rw [readSIntBE, h2]
          simp [toSigned]
        rw [tagTypeId, deserializeById]
        norm_num
        simp only [s1, s2]
        norm_num [canonLtt]
      | cons e r =>
        obtain ⟨cb, body, hp, hb, hbs⟩ := serializeTag_listT_cons_elim e r ltt bs hs
        subst hbs
        rw [validTag] at hvalid
        simp only [Bool.and_eq_true, decide_eq_true_eq] at hvalid
        obtain ⟨⟨⟨hlen, hhomog⟩, hve⟩, hvr⟩ := hvalid
        obtain ⟨hread4, hcb4⟩ := readSIntBE_packSigned 4 (by norm_num)
          (((e :: r).length : Nat) : Int) cb pre
          (body ++ post) hp
        set data := pre ++ (([tagTypeId e] ++ cb ++ body) ++ post) with hdata
        have s1 : readUIntBE 1 data (pre.length : Int) = some (tagTypeId e) := by
          have hd : data = pre ++ (tagTypeId e :: (cb ++ body ++ post)) := by
            rw [hdata]
            simp
          rw [hd]
          exact readUIntBE_single pre _ (tagTypeId e)
        have s2 : readSIntBE 4 data ((pre.length : Int) + 1) =
            some (((e :: r).length : Nat) : Int) := by
          have hd : pre ++ [tagTypeId e] ++ (cb ++ (body ++ post)) = data := by
            rw [hdata]
            simp
          have hoff : (((pre ++ [tagTypeId e]).length : Nat) : Int) =
              (pre.length : Int) + 1 := by
            rw [natCast_length_append]
            simp
          rw [← hd, ← hoff]
          exact (readSIntBE_packSigned 4 (by norm_num) _ cb (pre ++ [tagTypeId e])
            (body ++ post) hp).1
        have hpt : ∀ x ∈ e :: r, RTtagAt f x := by
          intro x hx
          apply ih x
          · have h1 := mem_tagSizeN_le_listSizeN x (e :: r) hx
            have h2 : tagSizeN (.listT (e :: r) ltt) = listSizeN (e :: r) + 1 := by
              simp [tagSizeN]
            omega
          · rcases List.mem_cons.mp hx with h1 | h2
            · subst h1; exact hve
            · exact validList_mem r x h2 hvr
          · have h1 := mem_tagCost_le_listCost x (e :: r) hx
            have h2 : tagCost (.listT (e :: r) ltt) = listCost (e :: r) + 1 := by
              simp [tagCost]
            omega
        have hid : ∀ x ∈ e :: r, tagTypeId x = tagTypeId e := by
          intro x hx
          rcases List.mem_cons.mp hx with h1 | h2
          · subst h1; rfl
          · simp only [List.all_eq_true, decide_eq_true_eq] at hhomog
            exact hhomog x h2
        have s3 := listElems_rt f (tagTypeId e) (e :: r) hpt hid body hb
          (pre ++ [tagTypeId e] ++ cb) post
        have hd3 : (pre ++ [tagTypeId e] ++ cb) ++ (body ++ post) = data := by
          rw [hdata]
          simp
        have hoff3 : (((pre ++ [tagTypeId e] ++ cb).length : Nat) : Int) =
            (pre.length : Int) + 5 := by
          simp only [List.length_append, List.length_cons, List.length_nil]
          rw [hcb4]
          push_cast
          ring
        rw [hd3, hoff3] at s3
        have hbound := tagTypeId_bounds e
        have hc1 : ¬(tagTypeId e = 0 ∨ (((e :: r).length : Nat) : Int) = 0) := by
          push_neg
          constructor
          · omega
          · simp
            omega
        have hc2 : ¬(12 < tagTypeId e) := by omega
        have hc3 : ¬((((e :: r).length : Nat) : Int) < 0) := by
          omega
        have htoNat : ((((e :: r).length : Nat) : Int)).toNat = (e :: r).length :=
          Int.toNat_natCast _
        have hlistEq : canonLtt (.listT (e :: r) ltt) =
            .listT (canonList (e :: r)) (some (tagTypeId e)) := by
          rw [canonLtt, canonList]
        rw [tagTypeId, deserializeById]
        norm_num
        simp only [s1, s2, if_neg hc1, if_neg hc2, if_neg hc3, htoNat, s3]
        have hoffEq : ((pre.length : Int) + 5 + (body.length : Int)) =
            (pre.length : Int) + ((cb.length : Int) + (body.length : Int) + 1) := by
          rw [hcb4]
          push_cast
          ring
        rw [hlistEq, hoffEq]
    | compoundT es =>
      obtain ⟨body, hb, hbs⟩ := serializeTag_compoundT_elim es bs hs
      subst hbs
      rw [validTag] at hvalid
      simp only [Bool.and_eq_true, decide_eq_true_eq] at hvalid
      obtain ⟨hnodup, hvents⟩ := hvalid
      have hcostC : tagCost (.compoundT es) = entsCost es + 1 := by
        simp [tagCost]
      have hsizeC : tagSizeN (.compoundT es) = entsSizeN es + 1 := by
        simp [tagSizeN]
      have hpt : ∀ x ∈ es, RTtagAt f x.2 := by
        intro x hx
        apply ih x.2
        · have h1 := mem_tagSizeN_le_entsSizeN x es hx
          omega
        · exact validEnts_mem es x hx hvents
        · have h1 := mem_tagCost_lt_entsCost x es hx
          omega
      have hloop := compoundLoop_rt f es hpt body hb hnodup f
        (by have := length_lt_entsCost es; omega) []
        (by intro e _; rfl) pre post
      have hlistEq : canonLtt (.compoundT es) = .compoundT (canonEnts es) := by
        rw [canonLtt]
      simp only [List.append_assoc, List.singleton_append] at hloop
      rw [tagTypeId, deserializeById]
      norm_num
      simp only [hloop, List.nil_append, hlistEq]
      have hoffC : ((pre.length : Int) + (body.length : Int) + 1) =
          (pre.length : Int) + ((body.length : Int) + 1) := by ring
      rw [hoffC]

/-! Canonicalization only changes list-type annotations, never payloads. -/

theorem listPayloadEq_canon_of (es : List NBTTag)
    (h : ∀ e ∈ es, tagPayloadEq (canonLtt e) e = true) :
    listPayloadEq (canonList es) es = true := by
  induction es with
  | nil => rfl
  | cons e r ih =>
    rw [canonList, listPayloadEq]
    simp only [Bool.and_eq_true]
    exact ⟨h e (List.mem_cons_self e r),
      ih (fun x hx => h x (List.mem_cons_of_mem e hx))⟩

theorem entsPayloadEq_canon_of (es : List (List Nat × NBTTag))
    (h : ∀ e ∈ es, tagPayloadEq (canonLtt e.2) e.2 = true) :
    entsPayloadEq (canonEnts es) es = true := by
  induction es with
  | nil => rfl
  | cons e r ih =>
    obtain ⟨k, t⟩ := e
    rw [canonEnts, entsPayloadEq]
    simp only [Bool.and_eq_true, beq_self_eq_true]
    exact ⟨⟨trivial, h (k, t) (List.mem_cons_self _ r)⟩,
      ih (fun x hx => h x (List.mem_cons_of_mem _ hx))⟩

theorem tagPayloadEq_canon : ∀ n t, tagSizeN t ≤ n →
    tagPayloadEq (canonLtt t) t = true := by
  intro n
  induction n with
  | zero =>
    intro t hsize
    have := tagSizeN_pos t
    omega
  | succ n ih =>
    intro t hsize
    cases t with
    | listT es ltt =>
      cases es with
      | nil => simp [canonLtt, tagPayloadEq, listPayloadEq]
      | cons e r =>
        rw [canonLtt, tagPayloadEq]
        have hsz : tagSizeN (NBTTag.listT (e :: r) ltt) = listSizeN (e :: r) + 1 := by
          simp [tagSizeN]
        have hpoint : ∀ x ∈ e :: r, tagPayloadEq (canonLtt x) x = true := by
          intro x hx
          apply ih x
          have := mem_tagSizeN_le_listSizeN x (e :: r) hx
          omega
        have := listPayloadEq_canon_of (e :: r) hpoint
        rw [canonList] at this
        exact this
    | compoundT es =>
      rw [canonLtt, tagPayloadEq]
      have hsz : tagSizeN (NBTTag.compoundT es) = entsSizeN es + 1 := by
        simp [tagSizeN]
      apply entsPayloadEq_canon_of es
      intro x hx
      apply ih x.2
      have := mem_tagSizeN_le_entsSizeN x es hx
      omega
    | byteT v => simp [canonLtt, tagPayloadEq]
    | shortT v => simp [canonLtt, tagPayloadEq]
    | intT v => simp [canonLtt, tagPayloadEq]
    | longT v => simp [canonLtt, tagPayloadEq]
    | floatT b => simp [canonLtt, tagPayloadEq]
    | doubleT b => simp [canonLtt, tagPayloadEq]
    | byteArrayT l => simp [canonLtt, tagPayloadEq]
    | stringT s => simp [canonLtt, tagPayloadEq]
    | intArrayT l => simp [canonLtt, tagPayloadEq]
    | longArrayT l => simp [canonLtt, tagPayloadEq]

/-- C1: for every valid tag tree, serialization succeeds, deserializing the
produced bytes (dispatched on the tag's own variant id, at sufficient fuel)
yields a tag payload-equal to the original — with compound insertion order
and list/array element order preserved, since the decoded tag is exactly
`canonLtt t`, identical to `t` except for list-type annotations — and the
decode offset advances by exactly the length of the serialized bytes. -/
theorem serialize_deserialize_round_trip (t : NBTTag)
    (h : validTag t = true) :
    ∃ bs, serializeTag t = some bs ∧
      deserializeById (tagCost t) (tagTypeId t) bs 0 =
        some (canonLtt t, (bs.length : Int)) ∧
      tagPayloadEq (canonLtt t) t = true := by
  obtain ⟨bs, hbs⟩ := serializeTag_ok (tagSizeN t) t (le_refl _) h
  have hrt := roundTripAt (tagSizeN t) t (le_refl _) h (tagCost t) (le_refl _)
    bs hbs ([] : List Nat) ([] : List Nat)
  simp only [List.nil_append, List.append_nil, List.length_nil,
    Nat.cast_zero, zero_add] at hrt
  exact ⟨bs, hbs, hrt, tagPayloadEq_canon (tagSizeN t) t (le_refl _)⟩

/-- Witness for C1 at a concrete tag tree: a compound holding a byte, a
nested list of ints, a string and an int array. -/
theorem serialize_deserialize_round_trip_witness :
    validTag (.compoundT [([97], .byteT 5),
      ([98], .listT [.intT 7, .intT 8] none),
      ([99], .stringT [104, 105]),
      ([100], .intArrayT [5, -5])]) = true ∧
    (∃ bs, serializeTag (.compoundT [([97], .byteT 5),
      ([98], .listT [.intT 7, .intT 8] none),
      ([99], .stringT [104, 105]),
      ([100], .intArrayT [5, -5])]) = some bs ∧
      deserializeById (tagCost (.compoundT [([97], .byteT 5),
          ([98], .listT [.intT 7, .intT 8] none),
          ([99], .stringT [104, 105]),
          ([100], .intArrayT [5, -5])]))
        (tagTypeId (.compoundT [([97], .byteT 5),
          ([98], .listT [.intT 7, .intT 8] none),
          ([99], .stringT [104, 105]),
          ([100], .intArrayT [5, -5])])) bs 0 =
        some (canonLtt (.compoundT [([97], .byteT 5),
          ([98], .listT [.intT 7, .intT 8] none),
          ([99], .stringT [104, 105]),
          ([100], .intArrayT [5, -5])]), (bs.length : Int)) ∧
      tagPayloadEq (canonLtt (.compoundT [([97], .byteT 5),
          ([98], .listT [.intT 7, .intT 8] none),
          ([99], .stringT [104, 105]),
          ([100], .intArrayT [5, -5])]))
        (.compoundT [([97], .byteT 5),
          ([98], .listT [.intT 7, .intT 8] none),
          ([99], .stringT [104, 105]),
          ([100], .intArrayT [5, -5])]) = true) := by
  have hv : validTag (.compoundT [([97], .byteT 5),
      ([98], .listT [.intT 7, .intT 8] none),
      ([99], .stringT [104, 105]),
      ([100], .intArrayT [5, -5])]) = true := by
    simp [validTag, validEnts, validList, tagTypeId]
    decide
  exact ⟨hv, serialize_deserialize_round_trip _ hv⟩

/-! Helpers for the truncated-string behaviour. -/

theorem readUIntBE_bounds (w : Nat) (data : List Nat) (off : Int) (x : Nat)
    (hoff : 0 ≤ off) (h : readUIntBE w data off = some x) :
    off + (w : Int) ≤ (data.length : Int) := by
  rw [readUIntBE, unpackBytes] at h
  simp only [resolveOffset, if_neg (by omega : ¬off < 0)] at h
  split at h
  · rename_i hc
    exact hc.2
  · exact absurd h (by simp)

theorem pySlice_truncated_length (data : List Nat) (a b : Int)
    (ha0 : 0 ≤ a) (haly : a ≤ (data.length : Int))
    (hb : (data.length : Int) < b) :
    (pySlice data a b).length = data.length - a.toNat := by
  simp only [pySlice, pySliceIdx, if_neg (by omega : ¬a < 0),
    if_neg (by omega : ¬b < 0)]
  have hs : min a.toNat data.length = a.toNat := by omega
  have he : min b.toNat data.length = data.length := by omega
  rw [hs, he]
  simp only [List.length_take, List.length_drop]
  omega

/-- C2 counterexample: decoding a String whose 16-bit prefix declares 5
bytes from a buffer holding only 1 byte of payload does not fail: it
returns the 1-byte string and moves the offset to 7, past the 3-byte
buffer. -/
theorem string_truncated_counterexample :
    stringTagDeserialize [0, 5, 97] 0 = some ([97], 7) ∧
    stringTagDeserialize [0, 5, 97] 0 ≠ none ∧
    ([97] : List Nat).length < 5 ∧ (([0, 5, 97] : List Nat).length : Int) < 7 := by
  refine ⟨by rfl, ?_, by simp, by simp⟩
  rw [show stringTagDeserialize [0, 5, 97] 0 = some ([97], 7) from rfl]
  simp

/-- C2 as amended: when the declared String length exceeds the remaining
buffer, `StringTag.deserialize` never raises a distinct truncated-data
error: only the 2-byte length read is bounds-checked, and the payload is
taken with a silently-truncating Python slice. If the truncated slice is
valid UTF-8, the decode silently succeeds with that strictly shorter
string and advances the offset by 2 plus the declared length, past the end
of the buffer; if the truncated slice is invalid UTF-8, the decode fails,
but with the `UnicodeDecodeError` raised by `.decode('utf-8')`, not any
length check. -/
theorem string_truncated_amended (data : List Nat) (off : Int) (len : Nat)
    (hoff : 0 ≤ off) (h1 : readUIntBE 2 data off = some len)
    (h2 : (data.length : Int) < off + 2 + (len : Int)) :
    (utf8Valid (pySlice data (off + 2) (off + 2 + (len : Int))) = true →
      stringTagDeserialize data off =
        some (pySlice data (off + 2) (off + 2 + (len : Int)),
          off + 2 + (len : Int)) ∧
      (pySlice data (off + 2) (off + 2 + (len : Int))).length < len) ∧
    (utf8Valid (pySlice data (off + 2) (off + 2 + (len : Int))) = false →
      stringTagDeserialize data off = none) ∧
    (data.length : Int) < off + 2 + (len : Int) := by
  have hbound := readUIntBE_bounds 2 data off len hoff h1
  have hshort :
      (pySlice data (off + 2) (off + 2 + (len : Int))).length < len := by
    have hlen2 : (len : Int) ≤ 0 → False := by
      intro hc
      have : (len : Nat) = 0 := by omega
      omega
    rw [pySlice_truncated_length data (off + 2) (off + 2 + (len : Int))
      (by omega) (by omega) h2]
    omega
  refine ⟨?_, ?_, h2⟩
  · intro hv
    refine ⟨?_, hshort⟩
    rw [stringTagDeserialize, h1]
    simp only [Option.some_bind]
    rw [utf8Decode, if_pos hv]
    rfl
  · intro hnv
    rw [stringTagDeserialize, h1]
    simp only [Option.some_bind]
    rw [utf8Decode, if_neg (by simp [hnv])]
    rfl

/-- Witness for the amended C2 at the concrete truncated buffer. -/
theorem string_truncated_amended_witness :
    (0 : Int) ≤ 0 ∧ readUIntBE 2 [0, 5, 97] 0 = some 5 ∧
      (([0, 5, 97] : List Nat).length : Int) < 0 + 2 + ((5 : Nat) : Int) ∧
    ((utf8Valid (pySlice [0, 5, 97] (0 + 2)
          (0 + 2 + ((5 : Nat) : Int))) = true →
        stringTagDeserialize [0, 5, 97] 0 =
          some (pySlice [0, 5, 97] (0 + 2) (0 + 2 + ((5 : Nat) : Int)),
            0 + 2 + ((5 : Nat) : Int)) ∧
        (pySlice [0, 5, 97] (0 + 2)
          (0 + 2 + ((5 : Nat) : Int))).length < 5) ∧
      (utf8Valid (pySlice [0, 5, 97] (0 + 2)
          (0 + 2 + ((5 : Nat) : Int))) = false →
        stringTagDeserialize [0, 5, 97] 0 = none) ∧
      (([0, 5, 97] : List Nat).length : Int) <
        0 + 2 + ((5 : Nat) : Int)) :=
  ⟨le_refl 0, by rfl, by norm_num,
    string_truncated_amended [0, 5, 97] 0 5 (le_refl 0) (by rfl) (by norm_num)⟩

/-- C3 counterexample: a ByteArray count prefix of -10 (bytes
`FF FF FF F6`) is not rejected: decoding returns an empty array and offset
-6, which has moved backwards past the start of the buffer, while the same
bytes do make IntArray and LongArray decoding fail. -/
theorem array_negative_count_counterexample :
    byteArrayTagDeserialize [255, 255, 255, 246] 0 = some ([], -6) ∧
    ((-6 : Int) < 0) ∧
    intArrayTagDeserialize [255, 255, 255, 246] 0 = none ∧
    longArrayTagDeserialize [255, 255, 255, 246] 0 = none := by
  refine ⟨by rfl, by norm_num, by rfl, by rfl⟩

/-- C3 as amended: on a negative 32-bit count, IntArray and LongArray
decoding fail (an invalid `struct` format string raises, modelled `none`) —
but ByteArray decoding performs no sign or bound check at all: it returns
whatever the Python slice yields and advances the offset by `4 + count`,
moving it backwards. -/
theorem array_negative_count_amended (data : List Nat) (off : Int)
    (len : Int) (h : readSIntBE 4 data off = some len) (hneg : len < 0) :
    byteArrayTagDeserialize data off =
      some ((pySlice data (off + 4) (off + 4 + len)).map
        (fun (b : Nat) => (b : Int)), off + 4 + len) ∧
    off + 4 + len < off + 4 ∧
    intArrayTagDeserialize data off = none ∧
    longArrayTagDeserialize data off = none := by
  refine ⟨?_, by omega, ?_, ?_⟩
  · rw [byteArrayTagDeserialize, h]
    rfl
  · rw [intArrayTagDeserialize, h]
    simp [hneg]
  · rw [longArrayTagDeserialize, h]
    simp [hneg]

/-- Witness for the amended C3 at the concrete count -10. -/
theorem array_negative_count_amended_witness :
    readSIntBE 4 [255, 255, 255, 246] 0 = some (-10) ∧ ((-10 : Int) < 0) ∧
    (byteArrayTagDeserialize [255, 255, 255, 246] 0 =
        some ((pySlice [255, 255, 255, 246] (0 + 4) (0 + 4 + (-10))).map
          (fun (b : Nat) => (b : Int)), 0 + 4 + (-10)) ∧
      (0 : Int) + 4 + (-10) < 0 + 4 ∧
      intArrayTagDeserialize [255, 255, 255, 246] 0 = none ∧
      longArrayTagDeserialize [255, 255, 255, 246] 0 = none) :=
  ⟨by rfl, by norm_num,
    array_negative_count_amended [255, 255, 255, 246] 0 (-10) (by rfl)
      (by norm_num)⟩

/-- C4 counterexample: the editor's update path stores `200 & 0xFF = 200`
for input 200, not the signed reinterpretation -56 the claim states; and
the `ByteTag` constructor itself does not mask at all, storing 300 rather
than 44. -/
theorem byte_masking_counterexample :
    updateTagValueInt (.byteT 0) 200 = .byteT 200 ∧ ((200 : Int) ≠ -56) ∧
    byteTagInit 300 = .byteT 300 ∧ ((300 : Int) ≠ 44) := by
  refine ⟨by rfl, by norm_num, by rfl, by norm_num⟩

/-- C4 as amended: constructing a `ByteTag` stores the input unchanged (no
masking); the value editor's Byte branch stores `n & 0xFF` as an unsigned
value in 0..255 with no signed reinterpretation — so input 300 stores 44
but input 200 stores 200, never -56. The Short branch likewise stores
`n & 0xFFFF`. -/
theorem byte_masking_amended (n : Int) :
    updateTagValueInt (.byteT 0) 300 = .byteT 44 ∧
    updateTagValueInt (.byteT 0) n = .byteT (n.emod 256) ∧
    0 ≤ n.emod 256 ∧ n.emod 256 < 256 ∧
    byteTagInit n = .byteT n ∧
    updateTagValueInt (.shortT 0) n = .shortT (n.emod 65536) := by
  refine ⟨by rfl, rfl, Int.emod_nonneg n (by norm_num),
    Int.emod_lt_of_pos n (by norm_num), rfl, rfl⟩

/-- C5: appending to a list with an established element variant fails with
a type-mismatch `TypeError` when the item's variant differs, producing no
updated list state (the Python list is untouched, since the raise happens
before the append); appending to a fresh list with no established variant
succeeds and fixes the element variant to the appended tag's variant. -/
theorem list_append_homogeneity (es es2 : List NBTTag) (tau : Nat)
    (item item2 : NBTTag) (hne : tagTypeId item ≠ tau) :
    listTagAppend ⟨es, some tau⟩ item =
      .error "List expects established element type, got a different one" ∧
    listTagAppend ⟨es2, none⟩ item2 =
      .ok ⟨es2 ++ [item2], some (tagTypeId item2)⟩ := by
  constructor
  · rw [listTagAppend]
    simp [hne]
  · rfl

/-- Witness for C5: a list of Ints rejects a Short; a fresh empty list
accepts a Byte and adopts its variant. -/
theorem list_append_homogeneity_witness :
    tagTypeId (.shortT 1) ≠ 3 ∧
    (listTagAppend ⟨[.intT 0], some 3⟩ (.shortT 1) =
      .error "List expects established element type, got a different one" ∧
    listTagAppend ⟨([] : List NBTTag), none⟩ (.byteT 9) =
      .ok ⟨[(.byteT 9 : NBTTag)], some (tagTypeId (.byteT 9))⟩) :=
  ⟨by decide,
    list_append_homogeneity [.intT 0] [] 3 (.shortT 1) (.byteT 9) (by decide)⟩

/-! Helpers for compound item assignment. -/

theorem mapped_keys (d : List (List Nat × NBTTag)) (k : List Nat) (v : NBTTag) :
    ((d.map (fun e => if e.1 = k then (k, v) else e)).map Prod.fst) =
      d.map Prod.fst := by
  induction d with
  | nil => rfl
  | cons e r ih =>
    by_cases he : e.1 = k <;> simp [he, ih]

theorem mapped_lookup_self (d : List (List Nat × NBTTag)) (k : List Nat)
    (v : NBTTag) (h : d.any (fun e => decide (e.1 = k)) = true) :
    dictLookup (d.map (fun e => if e.1 = k then (k, v) else e)) k = some v := by
  induction d with
  | nil => simp at h
  | cons e r ih =>
    by_cases he : e.1 = k
    · simp [dictLookup, List.find?, he]
    · simp only [List.any_cons, Bool.or_eq_true, decide_eq_true_eq] at h
      rcases h with h | h
      · exact absurd h he
      · have hih := ih h
        simp only [List.map_cons, if_neg he]
        rw [dictLookup] at hih ⊢
        rw [List.find?_cons_of_neg _ (by simp [he])]
        exact hih

theorem mapped_lookup_other (d : List (List Nat × NBTTag)) (k k2 : List Nat)
    (v : NBTTag) (hne : k2 ≠ k) :
    dictLookup (d.map (fun e => if e.1 = k then (k, v) else e)) k2 =
      dictLookup d k2 := by
  induction d with
  | nil => rfl
  | cons e r ih =>
    by_cases he : e.1 = k
    · rw [dictLookup, dictLookup] at ih ⊢
      simp only [List.map_cons, if_pos he, List.find?]
      have hk2 : decide (k = k2) = false := by
        simp [Ne.symm hne]
      have hek2 : decide (e.1 = k2) = false := by
        simp [he, Ne.symm hne]
      rw [hk2, hek2]
      exact ih
    · rw [dictLookup, dictLookup] at ih ⊢
      simp only [List.map_cons, if_neg he, List.find?]
      cases hd : decide (e.1 = k2)
      · exact ih
      · rfl

theorem dictLookup_ne_none_any (d : List (List Nat × NBTTag)) (k : List Nat)
    (h : dictLookup d k ≠ none) :
    d.any (fun e => decide (e.1 = k)) = true := by
  by_contra hfalse
  apply h
  rw [dictLookup_eq_none_iff]
  intro e he
  simp only [Bool.not_eq_true, List.any_eq_false, decide_eq_true_eq] at hfalse
  exact hfalse e he

/-- C7: assigning a new tag to an existing key of a Compound replaces the
bound value but leaves the key sequence — the insertion order that
`CompoundTag.serialize` walks — completely unchanged, and every other key
still maps to its previous value. -/
theorem compound_setitem_preserves_order (d : List (List Nat × NBTTag))
    (k k2 : List Nat) (v : NBTTag) (hmem : dictLookup d k ≠ none)
    (hne : k2 ≠ k) :
    (dictSet d k v).map Prod.fst = d.map Prod.fst ∧
    dictLookup (dictSet d k v) k = some v ∧
    dictLookup (dictSet d k v) k2 = dictLookup d k2 := by
  have hany := dictLookup_ne_none_any d k hmem
  rw [dictSet, if_pos hany]
  exact ⟨mapped_keys d k v, mapped_lookup_self d k v hany,
    mapped_lookup_other d k k2 v hne⟩

/-- Witness for C7 on a two-key compound, replacing the first key's value. -/
theorem compound_setitem_preserves_order_witness :
    dictLookup [([97], .byteT 1), ([98], .byteT 2)] [97] ≠ none ∧
    ([98] : List Nat) ≠ [97] ∧
    ((dictSet [([97], .byteT 1), ([98], .byteT 2)] [97] (.intT 9)).map
        Prod.fst =
      ([([97], .byteT 1), ([98], .byteT 2)] :
        List (List Nat × NBTTag)).map Prod.fst ∧
    dictLookup (dictSet [([97], .byteT 1), ([98], .byteT 2)] [97] (.intT 9))
      [97] = some (.intT 9) ∧
    dictLookup (dictSet [([97], .byteT 1), ([98], .byteT 2)] [97] (.intT 9))
      [98] = dictLookup [([97], .byteT 1), ([98], .byteT 2)] [98]) :=
  ⟨by rw [show dictLookup [([97], .byteT 1), ([98], .byteT 2)] [97] =
        some (.byteT 1) from rfl]; simp,
   by decide,
   compound_setitem_preserves_order [([97], .byteT 1), ([98], .byteT 2)]
     [97] [98] (.intT 9)
     (by rw [show dictLookup [([97], .byteT 1), ([98], .byteT 2)] [97] =
          some (.byteT 1) from rfl]; simp)
     (by decide)⟩

/-- C8: loading the four bytes `0A 00 00 00` — Compound root id, zero name
length, immediate End byte — yields an empty root Compound with empty name,
and the compound-body decode starting at offset 3 returns offset 4, so
exactly 4 bytes are consumed. Holds at every positive fuel. -/
theorem load_empty_root (fuel : Nat) :
    nbtLoadBytes (fuel + 1) [10, 0, 0, 0] = some ([], []) ∧
    compoundTagDeserialize (fuel + 1) [10, 0, 0, 0] 3 = some ([], 4) := by
  exact ⟨by rfl, by rfl⟩

/-- C9: a ListTag decoded from an empty wire list carries the `End`
sentinel (0) as its established element variant — unlike a freshly
constructed empty list, whose variant is unset — so `append` raises a
type-mismatch for every real tag (every tag class's variant id is nonzero),
while the fresh list accepts any first element. -/
theorem decoded_empty_list_append (es : List NBTTag) (item : NBTTag) :
    deserializeById 1 9 [0, 0, 0, 0, 0] 0 = some (.listT [] (some 0), 5) ∧
    listTagAppend ⟨es, some 0⟩ item =
      .error "List expects established element type, got a different one" ∧
    listTagAppend ⟨([] : List NBTTag), none⟩ item =
      .ok ⟨[item], some (tagTypeId item)⟩ := by
  refine ⟨by rfl, ?_, rfl⟩
  have hb := tagTypeId_bounds item
  have h0 : ¬(tagTypeId item = 0) := by omega
  simp [listTagAppend, h0]

/-! Structure of successful decodes, for the List decode claim. -/

/-- Whatever tag `deserializeById` successfully produces has exactly the
variant of the id it was dispatched on. -/
theorem deserializeById_typeId (fuel id : Nat) (data : List Nat) (off : Int)
    (t : NBTTag) (o : Int) (h : deserializeById fuel id data off = some (t, o)) :
    tagTypeId t = id := by
  cases fuel with
  | zero => simp [deserializeById] at h
  | succ fuel =>
    rw [deserializeById] at h
    by_cases h1 : id = 1
    · subst h1
      rw [if_pos rfl] at h
      obtain ⟨a, -, hfa⟩ := Option.map_eq_some'.mp h
      simp only [Prod.mk.injEq] at hfa
      obtain ⟨ht, -⟩ := hfa
      subst ht
      rfl
    · rw [if_neg h1] at h
      by_cases h2 : id = 2
      · subst h2
        rw [if_pos rfl] at h
        obtain ⟨a, -, hfa⟩ := Option.map_eq_some'.mp h
        simp only [Prod.mk.injEq] at hfa
        obtain ⟨ht, -⟩ := hfa
        subst ht
        rfl
      · rw [if_neg h2] at h
        by_cases h3 : id = 3
        · subst h3
          rw [if_pos rfl] at h
          obtain ⟨a, -, hfa⟩ := Option.map_eq_some'.mp h
          simp only [Prod.mk.injEq] at hfa
          obtain ⟨ht, -⟩ := hfa
          subst ht
          rfl
        · rw [if_neg h3] at h
          by_cases h4 : id = 4
          · subst h4
            rw [if_pos rfl] at h
            obtain ⟨a, -, hfa⟩ := Option.map_eq_some'.mp h
            simp only [Prod.mk.injEq] at hfa
            obtain ⟨ht, -⟩ := hfa
            subst ht
            rfl
          · rw [if_neg h4] at h
            by_cases h5 : id = 5
            · subst h5
              rw [if_pos rfl] at h
              obtain ⟨a, -, hfa⟩ := Option.map_eq_some'.mp h
              simp only [Prod.mk.injEq] at hfa
              obtain ⟨ht, -⟩ := hfa
              subst ht
              rfl
            · rw [if_neg h5] at h
              by_cases h6 : id = 6
              · subst h6
                rw [if_pos rfl] at h
                obtain ⟨a, -, hfa⟩ := Option.map_eq_some'.mp h
                simp only [Prod.mk.injEq] at hfa
                obtain ⟨ht, -⟩ := hfa
                subst ht
                rfl
              · rw [if_neg h6] at h
                by_cases h7 : id = 7
                · subst h7
                  rw [if_pos rfl] at h
                  obtain ⟨a, -, hfa⟩ := Option.map_eq_some'.mp h
                  simp only [Prod.mk.injEq] at hfa
                  obtain ⟨ht, -⟩ := hfa
                  subst ht
                  rfl
                · rw [if_neg h7] at h
                  by_cases h8 : id = 8
                  · subst h8
                    rw [if_pos rfl] at h
                    obtain ⟨a, -, hfa⟩ := Option.map_eq_some'.mp h
                    simp only [Prod.mk.injEq] at hfa
                    obtain ⟨ht, -⟩ := hfa
                    subst ht
                    rfl
                  · rw [if_neg h8] at h
                    by_cases h9 : id = 9
                    · subst h9
                      rw [if_pos rfl] at h
                      cases hu : readUIntBE 1 data off with
                      | none => simp [hu] at h
                      | some eid =>
                        simp only [hu] at h
                        cases hsx : readSIntBE 4 data (off + 1) with
                        | none => simp [hsx] at h
                        | some cnt =>
                          simp only [hsx] at h
                          split at h
                          · simp only [Option.some_inj, Prod.mk.injEq] at h
                            obtain ⟨ht, -⟩ := h
                            subst ht
                            rfl
                          · split at h
                            · simp at h
                            · split at h
                              · simp only [Option.some_inj, Prod.mk.injEq] at h
                                obtain ⟨ht, -⟩ := h
                                subst ht
                                rfl
                              · split at h
                                · simp at h
                                · rename_i ts o2 heq
                                  simp only [Option.some_inj,
                                    Prod.mk.injEq] at h
                                  obtain ⟨ht, -⟩ := h
                                  subst ht
                                  rfl
                    · rw [if_neg h9] at h
                      by_cases h10 : id = 10
                      · subst h10
                        rw [if_pos rfl] at h
                        split at h
                        · simp at h
                        · simp only [Option.some_inj, Prod.mk.injEq] at h
                          obtain ⟨ht, -⟩ := h
                          subst ht
                          rfl
                      · rw [if_neg h10] at h
                        by_cases h11 : id = 11
                        · subst h11
                          rw [if_pos rfl] at h
                          obtain ⟨a, -, hfa⟩ := Option.map_eq_some'.mp h
                          simp only [Prod.mk.injEq] at hfa
                          obtain ⟨ht, -⟩ := hfa
                          subst ht
                          rfl
                        · rw [if_neg h11] at h
                          by_cases h12 : id = 12
                          · subst h12
                            rw [if_pos rfl] at h
                            obtain ⟨a, -, hfa⟩ := Option.map_eq_some'.mp h
                            simp only [Prod.mk.injEq] at hfa
                            obtain ⟨ht, -⟩ := hfa
                            subst ht
                            rfl
                          · rw [if_neg h12] at h
                            simp at h

/-- A successful run of the element loop yields exactly `cnt` elements,
each satisfying any property the element decoder guarantees. -/
theorem deserializeListElemsF_spec
    (deser : List Nat → Int → Option (NBTTag × Int)) (P : NBTTag → Prop)
    (hP : ∀ d o2 t o3, deser d o2 = some (t, o3) → P t) :
    ∀ cnt data off ts o,
      deserializeListElemsF deser cnt data off = some (ts, o) →
      ts.length = cnt ∧ ∀ t ∈ ts, P t := by
  intro cnt
  induction cnt with
  | zero =>
    intro data off ts o h
    rw [deserializeListElemsF] at h
    simp only [Option.some_inj, Prod.mk.injEq] at h
    obtain ⟨ht, -⟩ := h
    subst ht
    exact ⟨rfl, by simp⟩
  | succ c ih =>
    intro data off ts o h
    rw [deserializeListElemsF] at h
    cases hd : deser data off with
    | none => simp [hd] at h
    | some p =>
      obtain ⟨t1, off2⟩ := p
      simp only [hd] at h
      cases hrest : deserializeListElemsF deser c data off2 with
      | none => simp [hrest] at h
      | some q =>
        obtain ⟨ts1, off3⟩ := q
        simp only [hrest, Option.some_inj, Prod.mk.injEq] at h
        obtain ⟨ht, -⟩ := h
        subst ht
        obtain ⟨hlen, hall⟩ := ih data off2 ts1 off3 hrest
        refine ⟨by simp [hlen], ?_⟩
        intro x hx
        rcases List.mem_cons.mp hx with h1 | h1
        · subst h1
          exact hP _ _ _ _ hd
        · exact hall x h1

/-- C6 counterexample: decoding the empty wire list `00 00 00 00 00`
yields `ListTag([], TagType.END)` — the element variant is the `End`
sentinel id 0, not the Python `None` the claim states. -/
theorem list_decode_empty_counterexample :
    deserializeById 1 9 [0, 0, 0, 0, 0] 0 = some (.listT [] (some 0), 5) ∧
    NBTTag.listT [] (some 0) ≠ NBTTag.listT [] none := by
  exact ⟨by rfl, by simp⟩

/-- C6 as amended: when the element-variant id byte is `End` or the 32-bit
count is 0, List decoding yields an empty list whose element variant is the
`End` sentinel (`TagType.END`, id 0) — not `None` — consuming the 5 header
bytes; otherwise, for a positive count, a successful decode yields exactly
`count` elements, each of the declared variant, in order, with the declared
variant recorded as the list's element type. -/
theorem list_decode_amended (fuel : Nat) (data : List Nat) (off : Int)
    (eid : Nat) (cnt : Int) (t : NBTTag) (o : Int)
    (h1 : readUIntBE 1 data off = some eid)
    (h2 : readSIntBE 4 data (off + 1) = some cnt) :
    ((eid = 0 ∨ cnt = 0) →
      deserializeById (fuel + 1) 9 data off =
        some (.listT [] (some 0), off + 5)) ∧
    (0 < cnt → eid ≠ 0 →
      deserializeById (fuel + 1) 9 data off = some (t, o) →
      ∃ es, t = .listT es (some eid) ∧ es.length = cnt.toNat ∧
        ∀ e ∈ es, tagTypeId e = eid) := by
  constructor
  · intro hcase
    rw [deserializeById]
    norm_num
    simp only [h1, h2]
    rw [if_pos hcase]
  · intro hpos hne hdec
    rw [deserializeById] at hdec
    norm_num at hdec
    simp only [h1, h2] at hdec
    rw [if_neg (by
      push_neg
      exact ⟨hne, by omega⟩)] at hdec
    by_cases h12 : 12 < eid
    · rw [if_pos h12] at hdec
      simp at hdec
    · rw [if_neg h12, if_neg (by omega)] at hdec
      cases helems : deserializeListElemsF
          (fun d o => deserializeById fuel eid d o) cnt.toNat data (off + 5) with
      | none => simp [helems] at hdec
      | some q =>
        obtain ⟨ts, o2⟩ := q
        simp only [helems, Option.some_inj, Prod.mk.injEq] at hdec
        obtain ⟨ht, -⟩ := hdec
        subst ht
        obtain ⟨hlen, hall⟩ := deserializeListElemsF_spec
          (fun d o => deserializeById fuel eid d o)
          (fun e => tagTypeId e = eid)
          (fun d o2 t2 o3 hh => deserializeById_typeId fuel eid d o2 t2 o3 hh)
          cnt.toNat data (off + 5) ts o2 helems
        exact ⟨ts, rfl, hlen, hall⟩

/-- Witness for the amended C6: the empty case on the wire bytes
`00 00 00 00 00`, and the positive case on a two-element byte list
`01 00 00 00 02 05 07`. -/
theorem list_decode_amended_witness :
    readUIntBE 1 [1, 0, 0, 0, 2, 5, 7] 0 = some 1 ∧
    readSIntBE 4 [1, 0, 0, 0, 2, 5, 7] (0 + 1) = some 2 ∧
    (0 : Int) < 2 ∧ (1 : Nat) ≠ 0 ∧
    deserializeById 2 9 [1, 0, 0, 0, 2, 5, 7] 0 =
      some (.listT [.byteT 5, .byteT 7] (some 1), 7) ∧
    (∃ es, NBTTag.listT [.byteT 5, .byteT 7] (some 1) =
        .listT es (some 1) ∧ es.length = (2 : Int).toNat ∧
        ∀ e ∈ es, tagTypeId e = 1) := by
  refine ⟨by rfl, by rfl, by norm_num, by norm_num, by rfl, ?_⟩
  exact (list_decode_amended 1 [1, 0, 0, 0, 2, 5, 7] 0 1 2
    (.listT [.byteT 5, .byteT 7] (some 1)) 7 (by rfl) (by rfl)).2
    (by norm_num) (by norm_num) (by rfl)

/-! A model of Python `==` on tag payloads, for `Tag.__eq__`. -/

/-- The exact numeric value of an IEEE-754 bit pattern: not-a-number, a
signed infinity, or a finite rational. -/
inductive FloatVal where
  | nan
  | inf (neg : Bool)
  | fin (q : ℚ)

/-- A dyadic rational `num * 2 ^ e`. -/
def mkDyadic (num : Int) (e : Int) : ℚ :=
  if 0 ≤ e then (num : ℚ) * 2 ^ e.toNat else (num : ℚ) / 2 ^ (-e).toNat

/-- Decode an IEEE-754 bit pattern with `ebits` exponent bits and `mbits`
mantissa bits into its exact value (sign, biased exponent, mantissa;
subnormals and the nan/infinity exponent included). -/
def decodeIEEE (ebits mbits : Nat) (bits : Nat) : FloatVal :=
  let m := bits % 2 ^ mbits
  let e := bits / 2 ^ mbits % 2 ^ ebits
  let sgn := bits / 2 ^ (mbits + ebits) % 2
  let bias := 2 ^ (ebits - 1) - 1
  if e = 2 ^ ebits - 1 then
    if m = 0 then .inf (sgn = 1) else .nan
  else
    let num : Int := (if sgn = 1 then -1 else 1) *
      (if e = 0 then (m : Int) else (2 ^ mbits + m : Int))
    let ex : Int := (if e = 0 then (1 : Int) else (e : Int)) - (bias : Int) -
      (mbits : Int)
    .fin (mkDyadic num ex)

/-- Python `==` on two float values: `nan` equals nothing (itself
included), infinities compare by sign, finite values compare exactly
(`0.0 == -0.0` holds since both decode to the rational 0). -/
def floatValEq : FloatVal → FloatVal → Bool
  | .inf b1, .inf b2 => b1 == b2
  | .fin q1, .fin q2 => q1 == q2
  | _, _ => false

/-- The Python value held in a tag's `value` attribute: an int, a float
(as its exact decoded value), a str (as UTF-8 bytes), a list, or a dict. -/
inductive PyVal where
  | pint (i : Int)
  | pfloat (v : FloatVal)
  | pstr (s : List Nat)
  | plist (l : List PyVal)
  | pdict (d : List (List Nat × PyVal))

mutual

/-- The `value` attribute of each tag as a `PyVal`: scalars and float bit
patterns decode to numbers, arrays become lists of ints, a `ListTag`'s
value is the list of its elements' values (Python list equality on `Tag`
objects recurses through `Tag.__eq__`, which compares `value` attributes),
and a `CompoundTag`'s value is its dict. -/
def pyValue : NBTTag → PyVal
  | .byteT v => .pint v
  | .shortT v => .pint v
  | .intT v => .pint v
  | .longT v => .pint v
  | .floatT bits => .pfloat (decodeIEEE 8 23 bits)
  | .doubleT bits => .pfloat (decodeIEEE 11 52 bits)
  | .byteArrayT l => .plist (l.map .pint)
  | .stringT s => .pstr s
  | .listT es _ => .plist (pyValueList es)
  | .compoundT es => .pdict (pyValueEnts es)
  | .intArrayT l => .plist (l.map .pint)
  | .longArrayT l => .plist (l.map .pint)

/-- `pyValue` over list elements. -/
def pyValueList : List NBTTag → List PyVal
  | [] => []
  | e :: r => pyValue e :: pyValueList r

/-- `pyValue` over compound entries. -/
def pyValueEnts : List (List Nat × NBTTag) → List (List Nat × PyVal)
  | [] => []
  | (k, t) :: r => (k, pyValue t) :: pyValueEnts r

end

mutual

/-- Python `==` on tag payload values: ints compare numerically, an int
and a finite float compare exactly, strings compare as sequences, lists
compare elementwise, dicts compare by key set and values (order ignored;
keys are unique in any dict the code builds); values of different shapes
are unequal. -/
def pyEq : PyVal → PyVal → Bool
  | .pint a, .pint b => a == b
  | .pint a, .pfloat f => floatValEq (.fin (a : ℚ)) f
  | .pfloat f, .pint a => floatValEq f (.fin (a : ℚ))
  | .pfloat f, .pfloat g => floatValEq f g
  | .pstr a, .pstr b => a == b
  | .plist a, .plist b => pyListEq a b
  | .pdict a, .pdict b => (a.length == b.length) && pyDictSub a b
  | _, _ => false

/-- Python list `==`: equal lengths and elementwise equality. -/
def pyListEq : List PyVal → List PyVal → Bool
  | [], [] => true
  | a :: r1, b :: r2 => pyEq a b && pyListEq r1 r2
  | _, _ => false

/-- Every key of the first dict maps in the second dict to an equal
value. -/
def pyDictSub : List (List Nat × PyVal) → List (List Nat × PyVal) → Bool
  | [], _ => true
  | (k, v) :: r, b =>
    match b.find? (fun e => decide (e.1 = k)) with
    | some e => pyEq v e.2 && pyDictSub r b
    | none => false

end

/-- `Tag.__eq__` when the other operand is also a `Tag`:
`self.value == other.value`, the variant classes playing no part. -/
def pyTagEq (a b : NBTTag) : Bool :=
  pyEq (pyValue a) (pyValue b)

/-- `Tag.__eq__` when the other operand is not a `Tag`:
`self.value == other`. -/
def pyTagEqValue (t : NBTTag) (v : PyVal) : Bool :=
  pyEq (pyValue t) v

theorem pyListEq_refl_pint (l : List Int) :
    pyListEq (l.map .pint) (l.map .pint) = true := by
  induction l with
  | nil => rfl
  | cons x r ih =>
    simp only [List.map_cons, pyListEq, pyEq, Bool.and_eq_true, beq_self_eq_true]
    exact ⟨trivial, ih⟩

/-- C10: tag equality compares payload values only and ignores the
variant: any two integer-variant tags holding the same int compare equal
(`ByteTag(1) == IntTag(1)`), a byte array equals an int or long array with
the same elements, and a tag compares equal to its bare payload value. -/
theorem tag_eq_ignores_variant (n : Int) (l : List Int) :
    pyTagEq (.byteT n) (.intT n) = true ∧
    pyTagEq (.byteT n) (.shortT n) = true ∧
    pyTagEq (.shortT n) (.intT n) = true ∧
    pyTagEq (.intT n) (.longT n) = true ∧
    pyTagEq (.byteArrayT l) (.intArrayT l) = true ∧
    pyTagEq (.byteArrayT l) (.longArrayT l) = true ∧
    pyTagEqValue (.byteT n) (.pint n) = true ∧
    pyTagEq (.byteT 1) (.intT 1) = true := by
  refine ⟨?_, ?_, ?_, ?_, ?_, ?_, ?_, ?_⟩ <;>
    simp [pyTagEq, pyTagEqValue, pyValue, pyEq, pyListEq_refl_pint]

end NBTEditor
